import Mathlib

/-! # B-tree insertion of `main.cpp` (`BTree::insert`, `BTree::insertNonFull`, `BTree::splitChild`)

A shallow embedding of the insertion core of the B-tree indexing simulator, followed by the
properties of it that are proved.

Modelling conventions.

* A `BTreeNode*` that owns its subtree is a value of the inductive type `BTreeNode`; a mutation in
  place of a node is the functional update of that value, `new BTreeNode(..)` is an application of
  the constructor.
* `std::vector<T>` is `List T`.  Every element access and every iterator offset of the source is
  bounds-checked in the model and yields `Fault.outOfRange` when it is outside the vector.
* Keys are C++ `int`; the code only copies and compares them, so they are modelled by `Int`.
* The one access of the source that is outside the *size* of its vector but inside its *storage*,
  the read `y->keys[2]` of `splitChild` made after `y->keys.resize(2)`, has two readings, selected
  by `Access`: `Access.checked` faults there, `Access.raw` returns what the storage still holds
  (a shrinking `resize` of a `std::vector<int>` neither reallocates nor overwrites).
* The recursion of `insertNonFull` is modelled with a fuel argument; `insertNonFull` supplies
  `height node + 1`.
* The calls made during a run are recorded by `BTree.insertEvents`, built on `BTree.descend`,
  the part of the non-leaf branch of `insertNonFull` that precedes the recursive call.
-/

/-- Constant `const int MAX_KEYS = 4;` of line 22. -/
def MAX_KEYS : Nat := 4

/-- Class `BTreeNode`: the `leaf` flag, the `keys` vector and the `children` vector. -/
inductive BTreeNode where
  | mk (leaf : Bool) (keys : List Int) (children : List BTreeNode)
deriving Repr

namespace BTreeNode

/-- Field `leaf`. -/
def leaf : BTreeNode → Bool
  | mk l _ _ => l

/-- Field `keys`. -/
def keys : BTreeNode → List Int
  | mk _ ks _ => ks

/-- Field `children`. -/
def children : BTreeNode → List BTreeNode
  | mk _ _ cs => cs

end BTreeNode

/-- Class `BTree`: the `root` pointer and the (unused) degree `t`. -/
structure BTree where
  root : BTreeNode
  t : Int
deriving Repr

/-- Constructor `BTree(int degree)`: the root is a new leaf without keys or children. -/
def BTree.new (degree : Int) : BTree :=
  { root := BTreeNode.mk true [] [], t := degree }

/-- Ways in which a run of the model stops without a result. -/
inductive Fault where
  | outOfRange
  | outOfFuel
deriving Repr

/-- The two readings of an `operator[]` whose index is at or past `size()` but inside the storage
that a shrinking `resize` left behind. -/
inductive Access where
  | checked
  | raw
deriving Repr

/-- Element read `v[i]`. -/
def vecGet {α : Type} (v : List α) (i : Nat) : Except Fault α :=
  match v[i]? with
  | some x => .ok x
  | none => .error .outOfRange

/-- Element write `v[i] = x`. -/
def vecSet {α : Type} (v : List α) (i : Nat) (x : α) : Except Fault (List α) :=
  if i < v.length then .ok (v.set i x) else .error .outOfRange

/-- Insertion `v.insert(v.begin() + i, x)`. -/
def vecInsert {α : Type} (v : List α) (i : Nat) (x : α) : Except Fault (List α) :=
  if i ≤ v.length then .ok (v.take i ++ x :: v.drop i) else .error .outOfRange

/-- The range `[v.begin() + n, v.end())`, as copied by `assign`. -/
def vecFrom {α : Type} (v : List α) (n : Nat) : Except Fault (List α) :=
  if n ≤ v.length then .ok (v.drop n) else .error .outOfRange

/-- Call `v.resize(n)`, new elements being value-initialised to `d`. -/
def vecResize {α : Type} (v : List α) (n : Nat) (d : α) : List α :=
  v.take n ++ List.replicate (n - v.length) d

/-- Read `v[i]` of an `int` vector whose elements are `live` and whose storage still holds
`storage` (the elements before the last shrinking `resize`). -/
def vecGetStale (a : Access) (storage live : List Int) (i : Nat) : Except Fault Int :=
  if i < live.length then vecGet live i
  else
    match a with
    | .checked => .error .outOfRange
    | .raw => vecGet storage i

/-- Method `BTree::splitChild(parent, i)`, lines 79-90. -/
def BTree.splitChild (a : Access) (parent : BTreeNode) (i : Nat) : Except Fault BTreeNode := do
  -- BTreeNode* y = parent->children[i];
  let y ← vecGet parent.children i
  -- BTreeNode* z = new BTreeNode(y->leaf);  z->keys.assign(y->keys.begin() + 3, y->keys.end());
  let zkeys ← vecFrom y.keys 3
  -- y->keys.resize(2);
  let ykeys := vecResize y.keys 2 0
  -- if (!y->leaf) { z->children.assign(y->children.begin() + 3, ..); y->children.resize(3); }
  -- (once `begin() + 3` is in range, `resize(3)` keeps the first three children)
  let (zchildren, ychildren) ←
    if y.leaf then pure ([], y.children)
    else do
      let zc ← vecFrom y.children 3
      pure (zc, y.children.take 3)
  let y1 := BTreeNode.mk y.leaf ykeys ychildren
  let z := BTreeNode.mk y.leaf zkeys zchildren
  -- parent->children.insert(parent->children.begin() + i + 1, z);
  let pchildren ← vecInsert (parent.children.set i y1) (i + 1) z
  -- parent->keys.insert(parent->keys.begin() + i, y->keys[2]);
  let mid ← vecGetStale a y.keys ykeys 2
  let pkeys ← vecInsert parent.keys i mid
  pure (BTreeNode.mk parent.leaf pkeys pchildren)

/-- The loop of lines 62-65 on a leaf: `while (i >= 0 && k < keys[i]) { keys[i+1] = keys[i]; --i; }`.
The counter of the model is `j = i + 1`; the result is the vector and the final `i + 1`. -/
def shiftLoop (k : Int) : Nat → List Int → Except Fault (List Int × Nat)
  | 0, keys => .ok (keys, 0)
  | j + 1, keys => do
    let x ← vecGet keys j
    if k < x then
      let keys1 ← vecSet keys (j + 1) x
      shiftLoop k j keys1
    else
      pure (keys, j + 1)

/-- The loop of lines 68-70 on a non-leaf: `while (i >= 0 && k < keys[i]) --i; ++i;`.
The counter of the model is `j = i + 1`; the result is the value of `i` after `++i`. -/
def scanLoop (k : Int) (keys : List Int) : Nat → Except Fault Nat
  | 0 => .ok 0
  | j + 1 => do
    let x ← vecGet keys j
    if k < x then scanLoop k keys j else pure (j + 1)

/-- Method `BTree::insertNonFull(node, k)`, lines 58-77, with a bound `fuel` on the recursion
depth. -/
def BTree.insertNonFullAux (a : Access) : Nat → BTreeNode → Int → Except Fault BTreeNode
  | 0, _, _ => .error .outOfFuel
  | fuel + 1, node, k =>
    if node.leaf then do
      -- node->keys.push_back(0); the shifting loop; node->keys[i + 1] = k;
      let (keys1, j) ← shiftLoop k node.keys.length (node.keys ++ [0])
      let keys2 ← vecSet keys1 j k
      pure (BTreeNode.mk node.leaf keys2 node.children)
    else do
      let i ← scanLoop k node.keys node.keys.length
      let c ← vecGet node.children i
      if c.keys.length = MAX_KEYS then
        let node1 ← BTree.splitChild a node i
        let sep ← vecGet node1.keys i
        let i1 := if k > sep then i + 1 else i
        let c1 ← vecGet node1.children i1
        let c2 ← BTree.insertNonFullAux a fuel c1 k
        pure (BTreeNode.mk node1.leaf node1.keys (node1.children.set i1 c2))
      else
        let c2 ← BTree.insertNonFullAux a fuel c k
        pure (BTreeNode.mk node.leaf node.keys (node.children.set i c2))

mutual
/-- Number of edges of the longest path from the node down to a node without children. -/
def height : BTreeNode → Nat
  | .mk _ _ cs => heightList cs
/-- One more than the largest height in a list of children, `0` for no children. -/
def heightList : List BTreeNode → Nat
  | [] => 0
  | c :: cs => max (height c + 1) (heightList cs)
end

/-- Method `BTree::insertNonFull(node, k)` with the fuel that the height of `node` calls for. -/
def BTree.insertNonFull (a : Access) (node : BTreeNode) (k : Int) : Except Fault BTreeNode :=
  BTree.insertNonFullAux a (height node + 1) node k

/-- Method `BTree::insert(k)`, lines 48-56. -/
def BTree.insert (a : Access) (tr : BTree) (k : Int) : Except Fault BTree := do
  let root1 ←
    if tr.root.keys.length = MAX_KEYS then
      -- s = new BTreeNode(false); s->children.push_back(root); splitChild(s, 0); root = s;
      BTree.splitChild a (BTreeNode.mk false [] [tr.root]) 0
    else pure tr.root
  let root2 ← BTree.insertNonFull a root1 k
  pure { tr with root := root2 }

/-- Successive calls `insert(k)` for the keys of a list, in order. -/
def BTree.insertAll (a : Access) (tr : BTree) : List Int → Except Fault BTree
  | [] => .ok tr
  | k :: ks => do
    let tr1 ← BTree.insert a tr k
    BTree.insertAll a tr1 ks

/-! ## Notions used by the properties -/

mutual
/-- The node and all its descendants, in pre-order. -/
def allNodes : BTreeNode → List BTreeNode
  | .mk l ks cs => .mk l ks cs :: allNodesList cs
/-- The nodes of a list of subtrees. -/
def allNodesList : List BTreeNode → List BTreeNode
  | [] => []
  | c :: cs => allNodes c ++ allNodesList cs
end

mutual
/-- In-order traversal of a subtree: `children[0]`, `keys[0]`, `children[1]`, `keys[1]`, ...,
the last child. -/
def inorder : BTreeNode → List Int
  | .mk _ ks cs => inorderAux cs ks
/-- In-order traversal of a list of children interleaved with a list of keys. -/
def inorderAux : List BTreeNode → List Int → List Int
  | [], ks => ks
  | c :: cs, [] => inorder c ++ inorderAux cs []
  | c :: cs, k :: ks => inorder c ++ k :: inorderAux cs ks
end

/-- What follows the first child in `inorderAux`: the keys interleaved with the later children. -/
def inorderTail (ks : List Int) (cs : List BTreeNode) : List Int :=
  match ks with
  | [] => inorderAux cs []
  | k :: ks1 => k :: inorderAux cs ks1

/-- Total number of keys stored in the nodes of a subtree. -/
def keyCount (n : BTreeNode) : Nat :=
  ((allNodes n).map (fun m => m.keys.length)).sum

/-- The keys stored in the nodes of a subtree that have their `leaf` flag set. -/
def leafKeys (n : BTreeNode) : List Int :=
  ((allNodes n).filter (fun m => m.leaf)).flatMap (fun m => m.keys)

/-- Shape of a subtree all of whose leaves are `h` edges below its root: at most `MAX_KEYS` keys
in every node, nodes at depth `h` are leaves without children, nodes above are non-leaves with one
child more than keys, and every node other than the root of the subtree has at least one key. -/
def Shaped : Nat → BTreeNode → Prop
  | 0, n => n.leaf = true ∧ n.children = [] ∧ n.keys.length ≤ MAX_KEYS
  | h + 1, n => n.leaf = false ∧ n.keys.length ≤ MAX_KEYS ∧
      n.children.length = n.keys.length + 1 ∧ ∀ c ∈ n.children, 1 ≤ c.keys.length ∧ Shaped h c

/-- Fanout invariant: every node has at most `MAX_KEYS` keys and every non-leaf node has one child
more than keys. -/
def Fanout (root : BTreeNode) : Prop :=
  ∀ n ∈ allNodes root, n.keys.length ≤ MAX_KEYS ∧
    (n.leaf = false → n.children.length = n.keys.length + 1)

/-- Search-tree ordering: at every non-leaf node `n` and child index `i`, every key stored in a node
of the subtree `n.children[i]` is at least `n.keys[i-1]` (when `i > 0`) and at most `n.keys[i]`
(when `i < n.keys.length`). -/
def SearchOrdered (root : BTreeNode) : Prop :=
  ∀ n ∈ allNodes root, n.leaf = false →
    ∀ (i : Nat) (c : BTreeNode), n.children[i]? = some c →
      ∀ m ∈ allNodes c, ∀ x ∈ m.keys,
        (∀ lo, 0 < i → n.keys[i - 1]? = some lo → lo ≤ x) ∧
        (∀ hi, n.keys[i]? = some hi → x ≤ hi)

/-- The keys of every node are strictly ascending. -/
def NodesStrict (root : BTreeNode) : Prop :=
  ∀ n ∈ allNodes root, n.keys.Pairwise (fun x y => x < y)

/-- The keys of every node are ascending, equal values allowed. -/
def NodesSorted (root : BTreeNode) : Prop :=
  ∀ n ∈ allNodes root, n.keys.Pairwise (fun x y => x ≤ y)

/-- The structural invariant of the trees that `insert` builds. -/
def WellFormed (tr : BTree) : Prop :=
  ∃ h, Shaped h tr.root ∧ (0 < h → 1 ≤ tr.root.keys.length) ∧
    (inorder tr.root).Pairwise (fun x y => x ≤ y)

/-- Trees obtained from a freshly constructed tree by a sequence of calls of `insert`. -/
def Reachable (tr : BTree) : Prop :=
  ∃ (degree : Int) (ks : List Int), BTree.insertAll Access.raw (BTree.new degree) ks = .ok tr

/-- The node `y` as `splitChild` leaves it: its first two keys and, when it is not a leaf, its
first three children. -/
def splitLeft (y : BTreeNode) : BTreeNode :=
  BTreeNode.mk y.leaf (y.keys.take 2) (if y.leaf then y.children else y.children.take 3)

/-- The node `z` that `splitChild` creates: the keys of `y` from index 3 on and, when `y` is not a
leaf, its children from index 3 on. -/
def splitRight (y : BTreeNode) : BTreeNode :=
  BTreeNode.mk y.leaf (y.keys.drop 3) (if y.leaf then [] else y.children.drop 3)

/-! ## The steps of a run -/

/-- What lines 68-74 of `insertNonFull` compute on a non-leaf before the recursive call: the
index `scanned` that the scan finds, whether `children[scanned]` was split (`didSplit`), the node
as it is after that (`node1`), and the index `index` and the value `child` of the child that the
recursive call is made on. -/
structure Descent where
  scanned : Nat
  didSplit : Bool
  node1 : BTreeNode
  index : Nat
  child : BTreeNode

/-- Lines 68-74 of `insertNonFull`: the scan, the split of a full child and the choice between
`children[i]` and `children[i + 1]`. -/
def BTree.descend (a : Access) (node : BTreeNode) (k : Int) : Except Fault Descent := do
  let i ← scanLoop k node.keys node.keys.length
  let c ← vecGet node.children i
  if c.keys.length = MAX_KEYS then
    let node1 ← BTree.splitChild a node i
    let sep ← vecGet node1.keys i
    let i1 := if k > sep then i + 1 else i
    let c1 ← vecGet node1.children i1
    pure { scanned := i, didSplit := true, node1 := node1, index := i1, child := c1 }
  else
    pure { scanned := i, didSplit := false, node1 := node, index := i, child := c }

/-- A call made during `insert`, with its arguments as they are at entry. -/
inductive Event where
  | call (node : BTreeNode)
  | split (parent : BTreeNode) (i : Nat)

/-- The calls of `insertNonFull` and of `splitChild` made by `insertNonFull(node, k)`, in the
order in which they are entered, for a run without fault. -/
def BTree.insertNonFullEvents (a : Access) : Nat → BTreeNode → Int → Except Fault (List Event)
  | 0, _, _ => .error .outOfFuel
  | fuel + 1, node, k =>
    if node.leaf then do
      let _ ← BTree.insertNonFullAux a (fuel + 1) node k
      pure [Event.call node]
    else do
      let d ← BTree.descend a node k
      let rest ← BTree.insertNonFullEvents a fuel d.child k
      pure (Event.call node ::
        ((if d.didSplit then [Event.split node d.scanned] else []) ++ rest))

/-- The calls of `insertNonFull` and of `splitChild` made by `insert(k)`, in the order in which
they are entered, for a run without fault. -/
def BTree.insertEvents (a : Access) (tr : BTree) (k : Int) : Except Fault (List Event) :=
  if tr.root.keys.length = MAX_KEYS then do
    let root1 ← BTree.splitChild a (BTreeNode.mk false [] [tr.root]) 0
    let rest ← BTree.insertNonFullEvents a (height root1 + 1) root1 k
    pure (Event.split (BTreeNode.mk false [] [tr.root]) 0 :: rest)
  else
    BTree.insertNonFullEvents a (height tr.root + 1) tr.root k

/-- The call `splitChild(parent, i)` acts on a child of exactly `MAX_KEYS = 4` keys, leaves it
with exactly 2 keys and gives the new sibling exactly 1 key. -/
def SplitsFourIntoTwoAndOne (parent : BTreeNode) (i : Nat) : Prop :=
  ∃ y p1 y1 z, parent.children[i]? = some y ∧ y.keys.length = 4 ∧
    BTree.splitChild Access.raw parent i = .ok p1 ∧
    p1.children[i]? = some y1 ∧ y1.keys.length = 2 ∧
    p1.children[i + 1]? = some z ∧ z.keys.length = 1

/-- The call `splitChild(parent, i)` acts on a child `y` of exactly four keys `a, b, m, d`: it
leaves `y` with the keys `a, b` at indices 0 and 1, promotes the key `m` at index 2 to
`parent.keys[i]` and gives the new sibling `z`, placed at `children[i + 1]`, the single key `d`
at index 3; when `y` is not a leaf it has 5 children, of which `y` keeps the first 3 and `z`
receives the remaining 2. -/
def SplitsAtMiddle (parent : BTreeNode) (i : Nat) : Prop :=
  ∃ y a b m d p1, parent.children[i]? = some y ∧ y.keys = [a, b, m, d] ∧
    BTree.splitChild Access.raw parent i = .ok p1 ∧
    p1.keys[i]? = some m ∧
    p1.children[i]? = some (BTreeNode.mk y.leaf [a, b]
      (if y.leaf then y.children else y.children.take 3)) ∧
    p1.children[i + 1]? = some (BTreeNode.mk y.leaf [d]
      (if y.leaf then [] else y.children.drop 3)) ∧
    (y.leaf = false → y.children.length = 5 ∧
      (y.children.take 3).length = 3 ∧ (y.children.drop 3).length = 2)

/-- The tree that the inserts of `0, 1, ..., 13` build: a full non-leaf root over five leaves. -/
def fullInnerRootTree : BTree :=
  { root := BTreeNode.mk false [2, 5, 8, 11] [BTreeNode.mk true [0, 1] [],
      BTreeNode.mk true [3, 4] [], BTreeNode.mk true [6, 7] [], BTreeNode.mk true [9, 10] [],
      BTreeNode.mk true [12, 13] []],
    t := 3 }

/-- Every node without the leaf flag has one child more than keys. -/
def ChildrenMatch (root : BTreeNode) : Prop :=
  ∀ n ∈ allNodes root, n.leaf = false → n.children.length = n.keys.length + 1

mutual
/-- The depths, in edges below the node, of the leaves of a subtree. -/
def leafDepths : BTreeNode → List Nat
  | .mk l _ cs => if l then [0] else (leafDepthsList cs).map (fun d => d + 1)
/-- The depths of the leaves of a list of subtrees. -/
def leafDepthsList : List BTreeNode → List Nat
  | [] => []
  | c :: cs => leafDepths c ++ leafDepthsList cs
end

/-! ## Vectors and the two scanning loops -/

@[simp] theorem BTreeNode.leaf_mk (l : Bool) (ks : List Int) (cs : List BTreeNode) :
    (BTreeNode.mk l ks cs).leaf = l := rfl

@[simp] theorem BTreeNode.keys_mk (l : Bool) (ks : List Int) (cs : List BTreeNode) :
    (BTreeNode.mk l ks cs).keys = ks := rfl

@[simp] theorem BTreeNode.children_mk (l : Bool) (ks : List Int) (cs : List BTreeNode) :
    (BTreeNode.mk l ks cs).children = cs := rfl


theorem vecGet_append_length {α : Type} (pre post : List α) (x : α) :
    vecGet (pre ++ x :: post) pre.length = .ok x := by
  have h : (pre ++ x :: post)[pre.length]? = some x := by
    rw [List.getElem?_append_right (Nat.le_refl _)]
    simp
  simp [vecGet, h]

theorem vecSet_append_length {α : Type} (pre post : List α) (x y : α) :
    vecSet (pre ++ x :: post) pre.length y = .ok (pre ++ y :: post) := by
  simp [vecSet]

theorem shiftLoop_spec (k : Int) (pre : List Int) : ∀ (junk : Int) (post : List Int),
    ∃ L R junk1, pre = L ++ R ∧
      shiftLoop k pre.length (pre ++ junk :: post) = .ok (L ++ junk1 :: (R ++ post), L.length) ∧
      (∀ x ∈ R, k < x) ∧ (∀ x, L.getLast? = some x → x ≤ k) := by
  induction pre using List.reverseRecOn with
  | nil =>
    intro junk post
    exact ⟨[], [], junk, by simp [shiftLoop]⟩
  | append_singleton p x ih =>
    intro junk post
    by_cases hk : k < x
    · obtain ⟨L, R, junk1, hp, hrun, hR, hL⟩ := ih x (x :: post)
      refine ⟨L, R ++ [x], junk1, by simp [hp], ?_, ?_, hL⟩
      · have h1 : vecGet (p ++ [x] ++ junk :: post) p.length = .ok x := by
          simpa using vecGet_append_length p (junk :: post) x
        have h2 : vecSet (p ++ [x] ++ junk :: post) (p.length + 1) x = .ok (p ++ x :: x :: post) := by
          have := vecSet_append_length (p ++ [x]) post junk x
          simpa using this
        simp only [List.length_append, List.length_singleton, shiftLoop, h1, h2, bind, Except.bind,
          hk, if_true]
        simpa using hrun
      · intro y hy
        rcases List.mem_append.1 hy with h | h
        · exact hR y h
        · simp at h; simpa [h] using hk
    · refine ⟨p ++ [x], [], junk, by simp, ?_, by simp, ?_⟩
      · have h1 : vecGet (p ++ x :: junk :: post) p.length = .ok x :=
          vecGet_append_length p (junk :: post) x
        simp [shiftLoop, h1, bind, Except.bind, hk, pure, Except.pure]
      · intro y hy
        simp at hy
        omega

theorem scanLoop_spec (k : Int) (pre : List Int) : ∀ (post : List Int),
    ∃ L R, pre = L ++ R ∧ scanLoop k (pre ++ post) pre.length = .ok L.length ∧
      (∀ x ∈ R, k < x) ∧ (∀ x, L.getLast? = some x → x ≤ k) := by
  induction pre using List.reverseRecOn with
  | nil =>
    intro post
    exact ⟨[], [], by simp [scanLoop]⟩
  | append_singleton p x ih =>
    intro post
    have h1 : vecGet (p ++ x :: post) p.length = .ok x := vecGet_append_length p post x
    by_cases hk : k < x
    · obtain ⟨L, R, hp, hrun, hR, hL⟩ := ih (x :: post)
      refine ⟨L, R ++ [x], by simp [hp], ?_, ?_, hL⟩
      · simp only [List.length_append, List.length_singleton, scanLoop, List.append_assoc,
          List.singleton_append, h1, bind, Except.bind, hk, if_true]
        simpa using hrun
      · intro y hy
        rcases List.mem_append.1 hy with h | h
        · exact hR y h
        · simp at h; simpa [h] using hk
    · refine ⟨p ++ [x], [], by simp, ?_, by simp, ?_⟩
      · simp [scanLoop, h1, bind, Except.bind, hk, pure, Except.pure]
      · intro y hy
        simp at hy
        omega

/-! ## The in-order traversal -/

theorem inorderAux_cons (c : BTreeNode) (cs : List BTreeNode) (ks : List Int) :
    inorderAux (c :: cs) ks = inorder c ++ inorderTail ks cs := by
  cases ks <;> simp [inorderAux, inorderTail]

theorem inorderAux_append : ∀ (cl : List BTreeNode) (L : List Int) (cs : List BTreeNode)
    (ks : List Int), cl.length = L.length →
    inorderAux (cl ++ cs) (L ++ ks) = inorderAux cl L ++ inorderAux cs ks := by
  intro cl
  induction cl with
  | nil =>
    intro L cs ks h
    have : L = [] := by simpa using h.symm
    subst this
    simp [inorderAux]
  | cons c cl ih =>
    intro L cs ks h
    cases L with
    | nil => simp at h
    | cons k L =>
      have h1 : cl.length = L.length := by simpa using h
      simp [inorderAux, ih L cs ks h1]

theorem inorderAux_nil_nil : inorderAux [] [] = [] := by simp [inorderAux]

/-- Traversal of a node around its child number `cl.length`. -/
theorem inorderAux_split (cl : List BTreeNode) (L : List Int) (c : BTreeNode)
    (cr : List BTreeNode) (R : List Int) (h : cl.length = L.length) :
    inorderAux (cl ++ c :: cr) (L ++ R) = inorderAux cl L ++ (inorder c ++ inorderTail R cr) := by
  rw [inorderAux_append cl L (c :: cr) R h, inorderAux_cons]

theorem inorderAux_snoc (cl : List BTreeNode) (L : List Int) (c : BTreeNode) (x : Int)
    (h : cl.length = L.length) :
    inorderAux (cl ++ [c]) (L ++ [x]) = inorderAux cl L ++ (inorder c ++ [x]) := by
  rw [inorderAux_append cl L [c] [x] h]
  simp [inorderAux]

theorem getLast_le_of_pairwise {l : List Int} {x k : Int} (hp : l.Pairwise (fun a b => a ≤ b))
    (hl : l.getLast? = some x) (hx : x ≤ k) : ∀ y ∈ l, y ≤ k := by
  intro y hy
  obtain ⟨l1, rfl⟩ : ∃ l1, l = l1 ++ [x] := by
    rcases List.eq_nil_or_concat l with h | ⟨l1, b, h⟩
    · simp [h] at hl
    · subst h
      simp at hl
      exact ⟨l1, by simp [hl]⟩
  rcases List.mem_append.1 hy with h | h
  · have := (List.pairwise_append.1 hp).2.2 y h x (by simp)
    omega
  · simp at h; omega

/-! ## `splitChild` -/

theorem set_insert_eq {α : Type} (l : List α) (i : Nat) (y z : α) (h : i < l.length) :
    (l.set i y).take (i + 1) ++ z :: (l.set i y).drop (i + 1) =
      l.take i ++ y :: z :: l.drop (i + 1) := by
  induction l generalizing i with
  | nil => simp at h
  | cons a l ih =>
    cases i with
    | zero => simp
    | succ i =>
      have h1 : i < l.length := by simpa using h
      simpa using ih i h1

/-- Result of `splitChild` on a full child `y` at index `i`, with the raw reading of
`y->keys[2]`. -/
theorem splitChild_raw (parent y : BTreeNode) (i : Nat)
    (hy : parent.children[i]? = some y) (hfull : y.keys.length = MAX_KEYS)
    (hi : i ≤ parent.keys.length) (hch : y.leaf = false → 3 ≤ y.children.length) :
    ∃ mid, y.keys[2]? = some mid ∧
      BTree.splitChild Access.raw parent i = .ok (BTreeNode.mk parent.leaf
        (parent.keys.take i ++ mid :: parent.keys.drop i)
        (parent.children.take i ++ splitLeft y :: splitRight y ::
          parent.children.drop (i + 1))) := by
  have hlen : i < parent.children.length := by
    rcases Nat.lt_or_ge i parent.children.length with h | h
    · exact h
    · rw [List.getElem?_eq_none h] at hy; cases hy
  have h2 : 2 < y.keys.length := by rw [hfull]; decide
  refine ⟨y.keys[2], by simp [h2], ?_⟩
  have hk3 : 3 ≤ y.keys.length := by rw [hfull]; decide
  have hres : vecResize y.keys 2 0 = y.keys.take 2 := by
    have : 2 - y.keys.length = 0 := by omega
    simp [vecResize, this]
  have hstale : vecGetStale Access.raw y.keys (y.keys.take 2) 2 = .ok y.keys[2] := by
    have : ¬ (2 < (y.keys.take 2).length) := by simp
    simp [vecGetStale, this, vecGet, h2]
  have hins := set_insert_eq parent.children i
    (BTreeNode.mk y.leaf (y.keys.take 2) (if y.leaf then y.children else y.children.take 3))
    (BTreeNode.mk y.leaf (y.keys.drop 3) (if y.leaf then [] else y.children.drop 3)) hlen
  unfold splitLeft splitRight
  cases hleaf : y.leaf with
  | true =>
    simp only [hleaf, if_true] at hins
    simp [BTree.splitChild, vecGet, hy, vecFrom, hk3, hres, hleaf, bind, Except.bind, pure, Except.pure,
      vecInsert, hlen, Nat.succ_le_of_lt hlen, hstale, hi, hins]
  | false =>
    have h3 := hch hleaf
    simp only [hleaf] at hins
    simp [BTree.splitChild, vecGet, hy, vecFrom, hk3, hres, hleaf, bind, Except.bind, pure, Except.pure,
      vecInsert, hlen, Nat.succ_le_of_lt hlen, hstale, hi, h3]
    simpa using hins

/-! ## `insertNonFull` -/

theorem exists_split_at {α : Type} (l : List α) (i : Nat) (h : i < l.length) :
    ∃ cl c cr, l = cl ++ c :: cr ∧ cl.length = i := by
  refine ⟨l.take i, l[i], l.drop (i + 1), ?_, ?_⟩
  · rw [← List.drop_eq_getElem_cons h, List.take_append_drop]
  · simp [List.length_take]; omega

theorem set_append_length {α : Type} (cl cr : List α) (c c2 : α) :
    (cl ++ c :: cr).set cl.length c2 = cl ++ c2 :: cr := by
  induction cl with
  | nil => simp
  | cons a cl ih => simp [ih]

theorem Shaped.keys_le {h : Nat} {n : BTreeNode} (hs : Shaped h n) : n.keys.length ≤ MAX_KEYS := by
  cases h with
  | zero => exact hs.2.2
  | succ h => exact hs.2.1

/-- In a sorted traversal, what precedes the child chosen by the scan is at most `k`. -/
theorem before_le (k : Int) (cl : List BTreeNode) (L : List Int) (hlen : cl.length = L.length)
    (hp : (inorderAux cl L).Pairwise (fun a b => a ≤ b))
    (hL : ∀ x, L.getLast? = some x → x ≤ k) : ∀ y ∈ inorderAux cl L, y ≤ k := by
  rcases List.eq_nil_or_concat L with h | ⟨L1, x, h⟩
  · subst h
    have : cl = [] := by simpa using hlen
    subst this
    simp [inorderAux]
  · subst h
    rcases List.eq_nil_or_concat cl with h | ⟨cl1, c1, h⟩
    · subst h; simp at hlen
    · subst h
      have hlen1 : cl1.length = L1.length := by simpa using hlen
      have hx : x ≤ k := hL x (by simp)
      rw [List.concat_eq_append, List.concat_eq_append, inorderAux_snoc cl1 L1 c1 x hlen1] at hp ⊢
      refine getLast_le_of_pairwise hp ?_ hx
      rw [← List.append_assoc, List.getLast?_append]
      simp

/-- In a sorted traversal, what follows the child chosen by the scan is at least `k`. -/
theorem tail_ge (k : Int) (cr : List BTreeNode) (R : List Int) (hlen : cr.length = R.length)
    (hp : (inorderTail R cr).Pairwise (fun a b => a ≤ b))
    (hR : ∀ x ∈ R, k < x) : ∀ y ∈ inorderTail R cr, k ≤ y := by
  cases R with
  | nil =>
    have : cr = [] := by simpa using hlen
    subst this
    simp [inorderTail, inorderAux]
  | cons r R1 =>
    have hr : k < r := hR r (by simp)
    simp only [inorderTail] at hp ⊢
    intro y hy
    rcases List.mem_cons.1 hy with h | h
    · omega
    · have := (List.pairwise_cons.1 hp).1 y h
      omega

/-- The two halves of a full node of a shaped subtree: their shape, their sizes and their
traversals. -/
theorem split_shaped (h : Nat) (y : BTreeNode) (hs : Shaped h y) (hfull : y.keys.length = MAX_KEYS) :
    ∃ a b m d, y.keys = [a, b, m, d] ∧
      Shaped h (splitLeft y) ∧ Shaped h (splitRight y) ∧
      (y.leaf = false → 3 ≤ y.children.length) ∧
      (splitLeft y).keys = [a, b] ∧ (splitRight y).keys = [d] ∧
      inorder y = inorder (splitLeft y) ++ m :: inorder (splitRight y) := by
  obtain ⟨yl, yks, ycs⟩ := y
  unfold splitLeft splitRight
  simp only [BTreeNode.keys, BTreeNode.leaf, BTreeNode.children, MAX_KEYS] at hfull ⊢
  match yks, hfull with
  | [a, b, m, d], _ =>
    refine ⟨a, b, m, d, rfl, ?_⟩
    cases h with
    | zero =>
      obtain ⟨h1, h2, _⟩ := hs
      simp only [BTreeNode.leaf, BTreeNode.children] at h1 h2
      subst h1; subst h2
      simp [Shaped, BTreeNode.leaf, BTreeNode.children, BTreeNode.keys, MAX_KEYS, inorder,
        inorderAux]
    | succ h =>
      obtain ⟨h1, _, h3, h4⟩ := hs
      simp only [BTreeNode.leaf, BTreeNode.children, BTreeNode.keys] at h1 h3 h4
      subst h1
      match ycs, h3 with
      | [c0, c1, c2, c3, c4], _ =>
        simp only [List.mem_cons, List.mem_singleton, forall_eq_or_imp, List.not_mem_nil] at h4
        simp [Shaped, BTreeNode.leaf, BTreeNode.children, BTreeNode.keys, MAX_KEYS, inorder,
          inorderAux, h4]


theorem vecGet_append_succ {α : Type} (cl cr : List α) (y z : α) :
    vecGet (cl ++ y :: z :: cr) (cl.length + 1) = .ok z := by
  have h := vecGet_append_length (cl ++ [y]) cr z
  simp only [List.append_assoc, List.singleton_append, List.length_append,
    List.length_singleton] at h
  exact h

theorem set_append_succ {α : Type} (cl cr : List α) (y z z2 : α) :
    (cl ++ y :: z :: cr).set (cl.length + 1) z2 = cl ++ y :: z2 :: cr := by
  have h := set_append_length (cl ++ [y]) cr z z2
  simp only [List.append_assoc, List.singleton_append, List.length_append,
    List.length_singleton] at h
  exact h

theorem drop_append_succ {α : Type} (cl cr : List α) (c : α) :
    (cl ++ c :: cr).drop (cl.length + 1) = cr := by
  induction cl with
  | nil => simp
  | cons a cl ih => simp

/-- Leaf branch of `insertNonFull`. -/
theorem insertNonFullAux_leaf (a : Access) (k : Int) (fuel : Nat) (ks : List Int)
    (cs : List BTreeNode) :
    ∃ L R, ks = L ++ R ∧
      BTree.insertNonFullAux a (fuel + 1) (BTreeNode.mk true ks cs) k =
        .ok (BTreeNode.mk true (L ++ k :: R) cs) ∧
      (∀ x ∈ R, k < x) ∧ (∀ x, L.getLast? = some x → x ≤ k) := by
  obtain ⟨L, R, junk1, hks, hrun, hR, hL⟩ := shiftLoop_spec k ks 0 []
  refine ⟨L, R, hks, ?_, hR, hL⟩
  have hset : vecSet (L ++ junk1 :: R) L.length k = .ok (L ++ k :: R) :=
    vecSet_append_length L R junk1 k
  simp only [List.append_nil] at hrun
  simp [BTree.insertNonFullAux, BTreeNode.leaf, BTreeNode.keys, BTreeNode.children, hrun, bind,
    Except.bind, hset, pure, Except.pure]

/-- Main induction: on a shaped subtree with sorted traversal whose root has room, `insertNonFull`
returns a subtree of the same shape whose traversal is the old one with `k` put at a sorted
position. -/
theorem insertNonFullAux_spec (k : Int) : ∀ (h fuel : Nat) (node : BTreeNode),
    Shaped h node → node.keys.length < MAX_KEYS → h < fuel →
    (inorder node).Pairwise (fun x y => x ≤ y) →
    ∃ node1, BTree.insertNonFullAux Access.raw fuel node k = .ok node1 ∧ Shaped h node1 ∧
      node.keys.length ≤ node1.keys.length ∧
      ∃ L R, inorder node = L ++ R ∧ inorder node1 = L ++ k :: R ∧
        (∀ x ∈ L, x ≤ k) ∧ (∀ x ∈ R, k ≤ x) := by
  intro h
  induction h with
  | zero =>
    intro fuel node hs hlt hfuel hsort
    obtain ⟨f, rfl⟩ : ∃ f, fuel = f + 1 := ⟨fuel - 1, by omega⟩
    obtain ⟨l, ks, cs⟩ := node
    obtain ⟨h1, h2, _⟩ := hs
    simp only [BTreeNode.leaf_mk, BTreeNode.children_mk, BTreeNode.keys_mk] at h1 h2 hlt
    subst h1; subst h2
    obtain ⟨L, R, hks, hrun, hR, hL⟩ := insertNonFullAux_leaf Access.raw k f ks []
    subst hks
    have hsort1 : (L ++ R).Pairwise (fun x y => x ≤ y) := by
      simpa [inorder, inorderAux] using hsort
    refine ⟨_, hrun, ?_, ?_, L, R, ?_, ?_, ?_, ?_⟩
    · simp only [Shaped, BTreeNode.leaf_mk, BTreeNode.children_mk, BTreeNode.keys_mk,
        MAX_KEYS] at hlt ⊢
      simp at hlt ⊢
      omega
    · simp
    · simp [inorder, inorderAux]
    · simp [inorder, inorderAux]
    · intro y hy
      rcases List.eq_nil_or_concat L with h | ⟨L1, x, h⟩
      · subst h; simp at hy
      · subst h
        have hx : x ≤ k := hL x (by simp)
        exact getLast_le_of_pairwise (List.pairwise_append.1 hsort1).1 (by simp) hx y hy
    · intro y hy
      exact le_of_lt (hR y hy)
  | succ h ih =>
    intro fuel node hs hlt hfuel hsort
    obtain ⟨f, rfl⟩ : ∃ f, fuel = f + 1 := ⟨fuel - 1, by omega⟩
    have hf : h < f := by omega
    obtain ⟨l, ks, cs⟩ := node
    obtain ⟨h1, _, h3, h4⟩ := hs
    simp only [BTreeNode.leaf_mk, BTreeNode.children_mk, BTreeNode.keys_mk] at h1 h3 h4 hlt
    subst h1
    obtain ⟨L, R, hks, hscan, hR, hL⟩ := scanLoop_spec k ks []
    simp only [List.append_nil] at hscan
    have hi : L.length < cs.length := by
      rw [h3, hks]; simp; omega
    obtain ⟨cl, c, cr, hcs, hcl⟩ := exists_split_at cs L.length hi
    subst hks; subst hcs
    have hcr : cr.length = R.length := by
      simp at h3; omega
    have hc : 1 ≤ c.keys.length ∧ Shaped h c := h4 c (by simp)
    have hin : inorder (BTreeNode.mk false (L ++ R) (cl ++ c :: cr)) =
        inorderAux cl L ++ (inorder c ++ inorderTail R cr) := by
      simp only [inorder]; exact inorderAux_split cl L c cr R hcl
    rw [hin] at hsort
    obtain ⟨hpP, hpCT, hcross⟩ := List.pairwise_append.1 hsort
    obtain ⟨hpC, hpT, hcross2⟩ := List.pairwise_append.1 hpCT
    have hP := before_le k cl L hcl hpP hL
    have hT := tail_ge k cr R hcr hpT hR
    have hget : vecGet (cl ++ c :: cr) L.length = .ok c := by
      rw [← hcl]; exact vecGet_append_length cl cr c
    have hlt1 : L.length + R.length < 4 := by simpa [MAX_KEYS] using hlt
    by_cases hfull : c.keys.length = MAX_KEYS
    · -- the child is full and is split first
      obtain ⟨a, b, m, d, hyk, hsy, hsz, hch, hyl, hzr, hiny⟩ := split_shaped h c hc.2 hfull
      obtain ⟨mid, hmid, hsplit⟩ := splitChild_raw (BTreeNode.mk false (L ++ R) (cl ++ c :: cr)) c
        L.length (by
          simp only [BTreeNode.children_mk]; rw [← hcl]
          rw [List.getElem?_append_right (Nat.le_refl _)]; simp)
        hfull (by simp) hch
      have hmm : mid = m := by
        rw [hyk] at hmid; simpa using hmid.symm
      subst hmm
      simp only [BTreeNode.keys_mk, BTreeNode.children_mk, BTreeNode.leaf_mk, List.take_left,
        List.drop_left] at hsplit
      rw [← hcl, List.take_left, drop_append_succ, hcl] at hsplit
      have hsep : vecGet (L ++ mid :: R) L.length = .ok mid := vecGet_append_length L R mid
      rw [hiny] at hpC hcross hcross2
      obtain ⟨hpY, hpMZ, hYM⟩ := List.pairwise_append.1 hpC
      obtain ⟨hMZ, hpZ⟩ := List.pairwise_cons.1 hpMZ
      by_cases hk : k > mid
      · obtain ⟨z2, hrun, hsz2, hlen2, Lz, Rz, hz, hz2, hLz, hRz⟩ :=
          ih f (splitRight c) hsz (by simp [hzr, MAX_KEYS]) hf hpZ
        refine ⟨BTreeNode.mk false (L ++ mid :: R) (cl ++ splitLeft c :: z2 :: cr), ?_, ?_, ?_,
          inorderAux cl L ++ (inorder (splitLeft c) ++ mid :: Lz), Rz ++ inorderTail R cr,
          ?_, ?_, ?_, ?_⟩
        · have hg : vecGet (cl ++ splitLeft c :: splitRight c :: cr) (L.length + 1) =
              .ok (splitRight c) := by
            rw [← hcl]; exact vecGet_append_succ cl cr _ _
          have hs2 := set_append_succ cl cr (splitLeft c) (splitRight c) z2
          rw [hcl] at hs2
          simp only [BTree.insertNonFullAux, BTreeNode.leaf_mk, BTreeNode.keys_mk, BTreeNode.children_mk,
            hscan, hget, hfull, hsplit, hsep, hk, hg, hrun, hs2, bind, Except.bind, pure,
            Except.pure, if_true, Bool.false_eq_true, if_false]
        · refine ⟨rfl, ?_, ?_, ?_⟩
          · simp [MAX_KEYS]; omega
          · simp at h3 ⊢; omega
          · intro c' hc'
            simp only [BTreeNode.children_mk, List.mem_append, List.mem_cons] at hc'
            rcases hc' with h' | h' | h' | h'
            · exact h4 c' (by simp [h'])
            · subst h'; exact ⟨by simp [hyl], hsy⟩
            · subst h'
              refine ⟨?_, hsz2⟩
              simp [hzr] at hlen2
              omega
            · exact h4 c' (by simp [h'])
        · simp
        · rw [hin, hiny, hz]; simp
        · simp only [inorder]
          rw [inorderAux_split cl L _ _ (mid :: R) hcl]
          simp only [inorderTail, inorderAux_cons]
          rw [show inorder z2 = Lz ++ k :: Rz from hz2]
          simp [inorder]
        · intro x hx
          rcases List.mem_append.1 hx with h' | h'
          · exact hP x h'
          · rcases List.mem_append.1 h' with h'' | h''
            · have := hYM x h'' mid (by simp)
              omega
            · rcases List.mem_cons.1 h'' with h3' | h3'
              · omega
              · exact hLz x h3'
        · intro x hx
          rcases List.mem_append.1 hx with h' | h'
          · exact hRz x h'
          · exact hT x h'
      · obtain ⟨y2, hrun, hsy2, hlen2, Ly, Ry, hy, hy2, hLy, hRy⟩ :=
          ih f (splitLeft c) hsy (by simp [hyl, MAX_KEYS]) hf hpY
        refine ⟨BTreeNode.mk false (L ++ mid :: R) (cl ++ y2 :: splitRight c :: cr), ?_, ?_, ?_,
          inorderAux cl L ++ Ly, Ry ++ mid :: (inorder (splitRight c) ++ inorderTail R cr),
          ?_, ?_, ?_, ?_⟩
        · have hg : vecGet (cl ++ splitLeft c :: splitRight c :: cr) L.length =
              .ok (splitLeft c) := by
            rw [← hcl]; exact vecGet_append_length cl _ _
          have hs2 := set_append_length cl (splitRight c :: cr) (splitLeft c) y2
          rw [hcl] at hs2
          simp only [BTree.insertNonFullAux, BTreeNode.leaf_mk, BTreeNode.keys_mk, BTreeNode.children_mk,
            hscan, hget, hfull, hsplit, hsep, hk, hg, hrun, hs2, bind, Except.bind, pure,
            Except.pure, if_true, Bool.false_eq_true, if_false]
        · refine ⟨rfl, ?_, ?_, ?_⟩
          · simp [MAX_KEYS]; omega
          · simp at h3 ⊢; omega
          · intro c' hc'
            simp only [BTreeNode.children_mk, List.mem_append, List.mem_cons] at hc'
            rcases hc' with h' | h' | h' | h'
            · exact h4 c' (by simp [h'])
            · subst h'
              refine ⟨?_, hsy2⟩
              simp [hyl] at hlen2
              omega
            · subst h'; exact ⟨by simp [hzr], hsz⟩
            · exact h4 c' (by simp [h'])
        · simp
        · rw [hin, hiny, hy]; simp
        · simp only [inorder]
          rw [inorderAux_split cl L _ _ (mid :: R) hcl]
          simp only [inorderTail, inorderAux_cons]
          rw [show inorder y2 = Ly ++ k :: Ry from hy2]
          simp [inorder]
        · intro x hx
          rcases List.mem_append.1 hx with h' | h'
          · exact hP x h'
          · exact hLy x h'
        · intro x hx
          have hkm : k ≤ mid := by omega
          rcases List.mem_append.1 hx with h' | h'
          · exact hRy x h'
          · rcases List.mem_cons.1 h' with h'' | h''
            · omega
            · rcases List.mem_append.1 h'' with h3' | h3'
              · have := hMZ x h3'
                omega
              · exact hT x h3'
    · -- the child has room
      have hclt : c.keys.length < MAX_KEYS := lt_of_le_of_ne hc.2.keys_le hfull
      obtain ⟨c2, hrun, hsc2, hlen2, Lc, Rc, hcin, hc2in, hLc, hRc⟩ := ih f c hc.2 hclt hf hpC
      refine ⟨BTreeNode.mk false (L ++ R) (cl ++ c2 :: cr), ?_, ?_, ?_,
        inorderAux cl L ++ Lc, Rc ++ inorderTail R cr, ?_, ?_, ?_, ?_⟩
      · have hs2 := set_append_length cl cr c c2
        rw [hcl] at hs2
        simp only [BTree.insertNonFullAux, BTreeNode.leaf_mk, BTreeNode.keys_mk, BTreeNode.children_mk,
          hscan, hget, hfull, hrun, hs2, bind, Except.bind, pure, Except.pure, if_true,
          Bool.false_eq_true, if_false]
      · refine ⟨rfl, ?_, ?_, ?_⟩
        · simp [MAX_KEYS]; omega
        · simp at h3 ⊢; omega
        · intro c' hc'
          simp only [BTreeNode.children_mk, List.mem_append, List.mem_cons] at hc'
          rcases hc' with h' | h' | h'
          · exact h4 c' (by simp [h'])
          · subst h'; exact ⟨by omega, hsc2⟩
          · exact h4 c' (by simp [h'])
      · simp
      · rw [hin, hcin]; simp
      · simp only [inorder]
        rw [inorderAux_split cl L _ _ R hcl]
        rw [show inorder c2 = Lc ++ k :: Rc from hc2in]
        simp
      · intro x hx
        rcases List.mem_append.1 hx with h' | h'
        · exact hP x h'
        · exact hLc x h'
      · intro x hx
        rcases List.mem_append.1 hx with h' | h'
        · exact hRc x h'
        · exact hT x h'

/-! ## `insert` -/

theorem heightList_of_forall (h : Nat) : ∀ (cs : List BTreeNode), cs ≠ [] →
    (∀ c ∈ cs, height c = h) → heightList cs = h + 1 := by
  intro cs
  induction cs with
  | nil => intro hne; exact absurd rfl hne
  | cons c cs ih =>
    intro _ hall
    have hc : height c = h := hall c (by simp)
    cases cs with
    | nil => simp [heightList, hc]
    | cons c1 cs1 =>
      have := ih (by simp) (fun c' hc' => hall c' (List.mem_cons_of_mem _ hc'))
      rw [heightList, hc, this]
      simp

/-- In a shaped subtree the height is the common depth of the leaves. -/
theorem Shaped.height_eq : ∀ (h : Nat) (n : BTreeNode), Shaped h n → height n = h := by
  intro h
  induction h with
  | zero =>
    intro n hs
    obtain ⟨l, ks, cs⟩ := n
    obtain ⟨_, h2, _⟩ := hs
    simp only [BTreeNode.children_mk] at h2
    subst h2
    simp [height, heightList]
  | succ h ih =>
    intro n hs
    obtain ⟨l, ks, cs⟩ := n
    obtain ⟨_, _, h3, h4⟩ := hs
    simp only [BTreeNode.children_mk, BTreeNode.keys_mk] at h3 h4
    simp only [height]
    apply heightList_of_forall h cs
    · intro hnil; subst hnil; simp at h3
    · intro c hc
      exact ih c (h4 c hc).2

/-- The root split of `insert`: shape and traversal of the new root. -/
theorem rootSplit_spec (h : Nat) (root : BTreeNode) (hs : Shaped h root)
    (hfull : root.keys.length = MAX_KEYS) :
    ∃ mid, root.keys[2]? = some mid ∧
      BTree.splitChild Access.raw (BTreeNode.mk false [] [root]) 0 =
        .ok (BTreeNode.mk false [mid] [splitLeft root, splitRight root]) ∧
      Shaped (h + 1) (BTreeNode.mk false [mid] [splitLeft root, splitRight root]) ∧
      inorder (BTreeNode.mk false [mid] [splitLeft root, splitRight root]) = inorder root := by
  obtain ⟨a, b, m, d, hyk, hsy, hsz, hch, hyl, hzr, hiny⟩ := split_shaped h root hs hfull
  obtain ⟨mid, hmid, hsplit⟩ := splitChild_raw (BTreeNode.mk false [] [root]) root 0
    (by simp) hfull (by simp) hch
  have hmm : mid = m := by
    rw [hyk] at hmid; simpa using hmid.symm
  subst hmm
  refine ⟨mid, hmid, by simpa using hsplit, ?_, ?_⟩
  · refine ⟨rfl, by simp [MAX_KEYS], by simp, ?_⟩
    intro c hc
    simp only [BTreeNode.children_mk, List.mem_cons, List.mem_singleton, List.not_mem_nil,
      or_false] at hc
    rcases hc with h' | h'
    · subst h'; exact ⟨by simp [hyl], hsy⟩
    · subst h'; exact ⟨by simp [hzr], hsz⟩
  · rw [hiny]; simp [inorder, inorderAux]

/-- One call of `insert` on a well-formed tree. -/
theorem insert_spec (tr : BTree) (k : Int) (h : Nat) (hs : Shaped h tr.root)
    (hmin : 0 < h → 1 ≤ tr.root.keys.length)
    (hsort : (inorder tr.root).Pairwise (fun x y => x ≤ y)) :
    ∃ tr1, BTree.insert Access.raw tr k = .ok tr1 ∧ tr1.t = tr.t ∧
      Shaped (if tr.root.keys.length = MAX_KEYS then h + 1 else h) tr1.root ∧
      1 ≤ tr1.root.keys.length ∧
      ∃ L R, inorder tr.root = L ++ R ∧ inorder tr1.root = L ++ k :: R ∧
        (∀ x ∈ L, x ≤ k) ∧ (∀ x ∈ R, k ≤ x) := by
  by_cases hfull : tr.root.keys.length = MAX_KEYS
  · obtain ⟨mid, _, hsplit, hs1, hin1⟩ := rootSplit_spec h tr.root hs hfull
    have hh := Shaped.height_eq (h + 1) _ hs1
    obtain ⟨r2, hrun, hs2, hlen2, L, R, hLR, hLR2, hL, hR⟩ :=
      insertNonFullAux_spec k (h + 1) (h + 2) _ hs1 (by simp [MAX_KEYS]) (by omega)
        (by rw [hin1]; exact hsort)
    refine ⟨{ tr with root := r2 }, ?_, rfl, ?_, ?_, L, R, ?_, hLR2, hL, hR⟩
    · simp only [BTree.insert, hfull, if_true, hsplit, BTree.insertNonFull, hh, hrun, bind, Except.bind, pure,
        Except.pure]
    · simpa [hfull] using hs2
    · simp at hlen2; exact hlen2
    · rw [← hin1]; exact hLR
  · have hlt : tr.root.keys.length < MAX_KEYS := lt_of_le_of_ne hs.keys_le hfull
    have hh := Shaped.height_eq h _ hs
    obtain ⟨r2, hrun, hs2, hlen2, L, R, hLR, hLR2, hL, hR⟩ :=
      insertNonFullAux_spec k h (h + 1) _ hs hlt (by omega) hsort
    refine ⟨{ tr with root := r2 }, ?_, rfl, ?_, ?_, L, R, hLR, hLR2, hL, hR⟩
    · simp only [BTree.insert, hfull, if_false, BTree.insertNonFull, hh, hrun, bind, Except.bind, pure,
        Except.pure]
    · simpa [hfull] using hs2
    · cases h with
      | zero =>
        have h1 : (inorder r2).length = (inorder tr.root).length + 1 := by
          rw [hLR, hLR2]; simp; omega
        obtain ⟨rl, rks, rcs⟩ := r2
        obtain ⟨_, hc, _⟩ := hs2
        simp only [BTreeNode.children_mk] at hc
        subst hc
        simp [inorder, inorderAux] at h1 ⊢
        omega
      | succ h =>
        have := hmin (by omega)
        simp only at hlen2 ⊢
        omega

/-! ## The nodes of a tree -/

theorem allNodesList_eq (cs : List BTreeNode) : allNodesList cs = cs.flatMap allNodes := by
  induction cs with
  | nil => simp [allNodesList]
  | cons c cs ih => simp [allNodesList, ih]

theorem mem_allNodes {m : BTreeNode} {l : Bool} {ks : List Int} {cs : List BTreeNode} :
    m ∈ allNodes (BTreeNode.mk l ks cs) ↔ m = BTreeNode.mk l ks cs ∨ ∃ c ∈ cs, m ∈ allNodes c := by
  simp [allNodes, allNodesList_eq]

theorem self_mem_allNodes (n : BTreeNode) : n ∈ allNodes n := by
  obtain ⟨l, ks, cs⟩ := n
  simp [allNodes]

mutual
/-- The traversal lists every stored key once. -/
theorem inorder_length : ∀ n : BTreeNode, (inorder n).length = keyCount n
  | .mk l ks cs => by
    have := inorderAux_length cs ks
    simp [inorder, keyCount, allNodes, this]
    omega
/-- Length of the interleaved traversal. -/
theorem inorderAux_length : ∀ (cs : List BTreeNode) (ks : List Int),
    (inorderAux cs ks).length = ((allNodesList cs).map (fun m => m.keys.length)).sum + ks.length
  | [], ks => by simp [inorderAux, allNodesList]
  | c :: cs, [] => by
    have h1 := inorder_length c
    have h2 := inorderAux_length cs []
    simp [inorderAux, allNodesList, h1, h2, keyCount]
  | c :: cs, k :: ks => by
    have h1 := inorder_length c
    have h2 := inorderAux_length cs ks
    simp [inorderAux, allNodesList, h1, h2, keyCount]
    omega
end

theorem keys_sublist_inorderAux : ∀ (cs : List BTreeNode) (ks : List Int),
    ks.Sublist (inorderAux cs ks) := by
  intro cs
  induction cs with
  | nil => intro ks; simp [inorderAux]
  | cons c cs ih =>
    intro ks
    cases ks with
    | nil => simp
    | cons k ks =>
      simp only [inorderAux]
      exact List.Sublist.trans ((ih ks).cons₂ k) (List.sublist_append_right _ _)

theorem child_sublist_inorderAux : ∀ (cs : List BTreeNode) (ks : List Int) (c : BTreeNode),
    c ∈ cs → (inorder c).Sublist (inorderAux cs ks) := by
  intro cs
  induction cs with
  | nil => intro ks c hc; simp at hc
  | cons c0 cs ih =>
    intro ks c hc
    rcases List.mem_cons.1 hc with h | h
    · subst h
      rw [inorderAux_cons]
      exact List.sublist_append_left _ _
    · cases ks with
      | nil =>
        simp only [inorderAux]
        exact List.Sublist.trans (ih [] c h) (List.sublist_append_right _ _)
      | cons k ks =>
        simp only [inorderAux]
        exact List.Sublist.trans ((ih ks c h).cons k) (List.sublist_append_right _ _)

mutual
/-- The traversal of a descendant is a sublist of the traversal of the subtree. -/
theorem inorder_sublist_of_mem : ∀ (n m : BTreeNode), m ∈ allNodes n →
    (inorder m).Sublist (inorder n)
  | .mk l ks cs, m, hm => by
    simp only [allNodes, List.mem_cons] at hm
    rcases hm with h | h
    · subst h; exact List.Sublist.refl _
    · simp only [inorder]
      exact inorderAux_sublist_of_mem cs ks m h
/-- The traversal of a descendant of one of the children is a sublist of the interleaved
traversal. -/
theorem inorderAux_sublist_of_mem : ∀ (cs : List BTreeNode) (ks : List Int) (m : BTreeNode),
    m ∈ allNodesList cs → (inorder m).Sublist (inorderAux cs ks)
  | [], ks, m, hm => by simp [allNodesList] at hm
  | c :: cs, ks, m, hm => by
    simp only [allNodesList, List.mem_append] at hm
    rcases hm with h | h
    · have h1 := inorder_sublist_of_mem c m h
      rw [inorderAux_cons]
      exact List.Sublist.trans h1 (List.sublist_append_left _ _)
    · cases ks with
      | nil =>
        have h1 := inorderAux_sublist_of_mem cs [] m h
        simp only [inorderAux]
        exact List.Sublist.trans h1 (List.sublist_append_right _ _)
      | cons k ks =>
        have h1 := inorderAux_sublist_of_mem cs ks m h
        simp only [inorderAux]
        exact List.Sublist.trans (h1.cons k) (List.sublist_append_right _ _)
end

theorem keys_sublist_inorder (n : BTreeNode) : n.keys.Sublist (inorder n) := by
  obtain ⟨l, ks, cs⟩ := n
  simp only [inorder, BTreeNode.keys_mk]
  exact keys_sublist_inorderAux cs ks

/-- A key stored in a node of a subtree occurs in the traversal of the subtree. -/
theorem mem_inorder_of_stored {n m : BTreeNode} {x : Int} (hm : m ∈ allNodes n)
    (hx : x ∈ m.keys) : x ∈ inorder n :=
  (inorder_sublist_of_mem n m hm).subset ((keys_sublist_inorder m).subset hx)

/-- Every node of a shaped subtree is the root of a shaped subtree. -/
theorem Shaped.of_mem : ∀ (h : Nat) (n m : BTreeNode), Shaped h n → m ∈ allNodes n →
    ∃ h1, Shaped h1 m := by
  intro h
  induction h with
  | zero =>
    intro n m hs hm
    obtain ⟨l, ks, cs⟩ := n
    have hc : cs = [] := hs.2.1
    subst hc
    simp [allNodes, allNodesList] at hm
    subst hm
    exact ⟨0, hs⟩
  | succ h ih =>
    intro n m hs hm
    obtain ⟨l, ks, cs⟩ := n
    rcases mem_allNodes.1 hm with h1 | ⟨c, hc, hmc⟩
    · subst h1; exact ⟨h + 1, hs⟩
    · exact ih c m (hs.2.2.2 c hc).2 hmc

theorem Shaped.node_fanout {h : Nat} {n : BTreeNode} (hs : Shaped h n) :
    n.keys.length ≤ MAX_KEYS ∧ (n.leaf = false → n.children.length = n.keys.length + 1) := by
  cases h with
  | zero =>
    refine ⟨hs.2.2, ?_⟩
    intro hl
    rw [hs.1] at hl
    cases hl
  | succ h => exact ⟨hs.2.1, fun _ => hs.2.2.1⟩

/-- Bounds of the keys of the child number `i` in a sorted interleaved traversal. -/
theorem child_bounds : ∀ (cs : List BTreeNode) (ks : List Int) (i : Nat) (c : BTreeNode),
    (inorderAux cs ks).Pairwise (fun x y => x ≤ y) → cs[i]? = some c →
    ∀ x ∈ inorder c, (∀ lo, 0 < i → ks[i - 1]? = some lo → lo ≤ x) ∧
      (∀ hi, ks[i]? = some hi → x ≤ hi) := by
  intro cs
  induction cs with
  | nil => intro ks i c _ hc; simp at hc
  | cons c0 cs ih =>
    intro ks i c hp hc x hx
    cases ks with
    | nil => simp
    | cons k0 ks =>
      simp only [inorderAux] at hp
      obtain ⟨_, hp2, hcross⟩ := List.pairwise_append.1 hp
      obtain ⟨hk0, hp3⟩ := List.pairwise_cons.1 hp2
      cases i with
      | zero =>
        simp only [List.getElem?_cons_zero, Option.some.injEq] at hc
        subst hc
        refine ⟨fun lo h0 => absurd h0 (by decide), ?_⟩
        intro hi hhi
        simp only [List.getElem?_cons_zero, Option.some.injEq] at hhi
        subst hhi
        exact hcross x hx _ (by simp)
      | succ i =>
        simp only [List.getElem?_cons_succ] at hc
        have hmem : c ∈ cs := List.getElem?_mem hc
        have hxin : x ∈ inorderAux cs ks := (child_sublist_inorderAux cs ks c hmem).subset hx
        obtain ⟨hlo, hhi⟩ := ih ks i c hp3 hc x hx
        refine ⟨?_, ?_⟩
        · intro lo _ hlo1
          cases i with
          | zero =>
            simp only [Nat.zero_add, Nat.sub_self, List.getElem?_cons_zero,
              Option.some.injEq] at hlo1
            subst hlo1
            exact hk0 x hxin
          | succ j =>
            simp only [Nat.add_sub_cancel, List.getElem?_cons_succ] at hlo1
            exact hlo lo (by omega) (by simpa using hlo1)
        · intro hi hhi1
          simp only [List.getElem?_cons_succ] at hhi1
          exact hhi hi hhi1

/-! ## Reachable trees -/

theorem wellFormed_new (degree : Int) : WellFormed (BTree.new degree) :=
  ⟨0, ⟨rfl, rfl, by simp [BTree.new, MAX_KEYS]⟩, fun h => absurd h (by decide),
    by simp [BTree.new, inorder, inorderAux]⟩

/-- One call of `insert` keeps a well-formed tree well-formed and adds `k` to its traversal. -/
theorem insert_wellFormed (tr : BTree) (k : Int) (hw : WellFormed tr) :
    ∃ tr1, BTree.insert Access.raw tr k = .ok tr1 ∧ tr1.t = tr.t ∧ WellFormed tr1 ∧
      (inorder tr1.root).Perm (k :: inorder tr.root) := by
  obtain ⟨h, hs, hmin, hsort⟩ := hw
  obtain ⟨tr1, hrun, ht, hs1, hmin1, L, R, hLR, hLR1, hL, hR⟩ := insert_spec tr k h hs hmin hsort
  refine ⟨tr1, hrun, ht, ⟨_, hs1, fun _ => hmin1, ?_⟩, ?_⟩
  · rw [hLR1]
    rw [hLR] at hsort
    obtain ⟨hpL, hpR, hcross⟩ := List.pairwise_append.1 hsort
    refine List.pairwise_append.2 ⟨hpL, List.pairwise_cons.2 ⟨hR, hpR⟩, ?_⟩
    intro a ha b hb
    rcases List.mem_cons.1 hb with h1 | h1
    · subst h1; exact hL a ha
    · exact hcross a ha b h1
  · rw [hLR1, hLR]
    exact List.perm_middle

/-- A sequence of calls of `insert` on a well-formed tree runs without fault and ends in a
well-formed tree whose traversal is a permutation of the keys given and the keys held before. -/
theorem insertAll_wellFormed : ∀ (ks : List Int) (tr : BTree), WellFormed tr →
    ∃ tr1, BTree.insertAll Access.raw tr ks = .ok tr1 ∧ tr1.t = tr.t ∧ WellFormed tr1 ∧
      (inorder tr1.root).Perm (ks ++ inorder tr.root) := by
  intro ks
  induction ks with
  | nil =>
    intro tr hw
    exact ⟨tr, rfl, rfl, hw, List.Perm.refl _⟩
  | cons k ks ih =>
    intro tr hw
    obtain ⟨tr1, hrun, ht, hw1, hperm⟩ := insert_wellFormed tr k hw
    obtain ⟨tr2, hrun2, ht2, hw2, hperm2⟩ := ih tr1 hw1
    refine ⟨tr2, ?_, by rw [ht2, ht], hw2, ?_⟩
    · simp only [BTree.insertAll, hrun, bind, Except.bind]
      exact hrun2
    · refine hperm2.trans ?_
      refine ((List.Perm.append_left ks hperm).trans ?_)
      simp

theorem reachable_wellFormed {tr : BTree} (hr : Reachable tr) : WellFormed tr := by
  obtain ⟨degree, ks, hrun⟩ := hr
  obtain ⟨tr1, hrun1, _, hw, _⟩ := insertAll_wellFormed ks (BTree.new degree) (wellFormed_new degree)
  rw [hrun] at hrun1
  cases hrun1
  exact hw

theorem WellFormed.tree_fanout {tr : BTree} (hw : WellFormed tr) : Fanout tr.root := by
  obtain ⟨h, hs, _, _⟩ := hw
  intro n hn
  obtain ⟨h1, hs1⟩ := Shaped.of_mem h tr.root n hs hn
  exact hs1.node_fanout

theorem WellFormed.nodesSorted {tr : BTree} (hw : WellFormed tr) : NodesSorted tr.root := by
  obtain ⟨h, _, _, hsort⟩ := hw
  intro n hn
  exact (hsort.sublist (inorder_sublist_of_mem tr.root n hn)).sublist (keys_sublist_inorder n)

theorem WellFormed.searchOrdered {tr : BTree} (hw : WellFormed tr) : SearchOrdered tr.root := by
  obtain ⟨h, _, _, hsort⟩ := hw
  intro n hn _ i c hc m hm x hx
  have hpn : (inorder n).Pairwise (fun x y => x ≤ y) :=
    hsort.sublist (inorder_sublist_of_mem tr.root n hn)
  obtain ⟨l, ks, cs⟩ := n
  simp only [inorder] at hpn
  simp only [BTreeNode.children_mk] at hc
  simp only [BTreeNode.keys_mk]
  exact child_bounds cs ks i c hpn hc x (mem_inorder_of_stored hm hx)

theorem Shaped.leaf_eq {h : Nat} {n m : BTreeNode} (hn : Shaped h n) (hm : Shaped h m) :
    n.leaf = m.leaf := by
  cases h with
  | zero => rw [hn.1, hm.1]
  | succ h => rw [hn.1, hm.1]

/-- On a leaf whose keys all equal `k`, `insertNonFull` appends `k`. -/
theorem leafStep (a : Access) (k : Int) (ks : List Int) (fuel : Nat) (hk : ∀ x ∈ ks, x = k) :
    BTree.insertNonFullAux a (fuel + 1) (BTreeNode.mk true ks []) k =
      .ok (BTreeNode.mk true (ks ++ [k]) []) := by
  obtain ⟨L, R, hks, hrun, hR, _⟩ := insertNonFullAux_leaf a k fuel ks []
  have hRnil : R = [] := by
    cases R with
    | nil => rfl
    | cons r R1 =>
      have h1 := hR r (by simp)
      have h2 := hk r (by rw [hks]; simp)
      omega
  subst hRnil
  rw [hrun, hks]
  simp


/-! ## The properties -/

/-- C1. Fanout invariant: whatever finite sequence of integers is inserted into a freshly
constructed tree, the inserts run without fault and in the tree that results every node holds at
most `MAX_KEYS = 4` keys and every non-leaf node has `keys.length + 1` children.  Every
intermediate tree is the result for a prefix of the sequence, so this holds after each insert. -/
theorem fanout_after_inserts (degree : Int) (ks : List Int) :
    ∃ tr, BTree.insertAll Access.raw (BTree.new degree) ks = .ok tr ∧
      ∀ n ∈ allNodes tr.root, n.keys.length ≤ 4 ∧
        (n.leaf = false → n.children.length = n.keys.length + 1) := by
  obtain ⟨tr, hrun, _, hw, _⟩ := insertAll_wellFormed ks (BTree.new degree) (wellFormed_new degree)
  exact ⟨tr, hrun, hw.tree_fanout⟩

/-- C2. Search-tree ordering: whatever finite sequence of integers is inserted into a freshly
constructed tree, in the tree that results, at every non-leaf node and child index `i`, every key
stored in the subtree `children[i]` is at least `keys[i-1]` (when `i > 0`) and at most `keys[i]`
(when `i < keys.length`). -/
theorem searchOrdered_after_inserts (degree : Int) (ks : List Int) :
    ∃ tr, BTree.insertAll Access.raw (BTree.new degree) ks = .ok tr ∧ SearchOrdered tr.root := by
  obtain ⟨tr, hrun, _, hw, _⟩ := insertAll_wellFormed ks (BTree.new degree) (wellFormed_new degree)
  exact ⟨tr, hrun, hw.searchOrdered⟩

/-- C3. Count conservation: after a sequence of `N` integers is inserted into a freshly
constructed tree, the number of keys stored in all nodes of the tree is `N`. -/
theorem keyCount_after_inserts (degree : Int) (ks : List Int) :
    ∃ tr, BTree.insertAll Access.raw (BTree.new degree) ks = .ok tr ∧
      keyCount tr.root = ks.length := by
  obtain ⟨tr, hrun, _, _, hperm⟩ :=
    insertAll_wellFormed ks (BTree.new degree) (wellFormed_new degree)
  refine ⟨tr, hrun, ?_⟩
  rw [← inorder_length, hperm.length_eq]
  simp [BTree.new, inorder, inorderAux]

/-- C4. With every element access bounds-checked, the fifth insert of `1, 2, 3, 4, 5` faults: the
first four inserts fill the root leaf, the fifth splits it, and `splitChild` reads `y->keys[2]`
after `y->keys.resize(2)`, an index that is not below the size of the vector. -/
theorem checked_insert_faults :
    BTree.insertAll Access.checked (BTree.new 3) [1, 2, 3, 4] =
        .ok { root := BTreeNode.mk true [1, 2, 3, 4] [], t := 3 } ∧
      vecGetStale Access.checked [1, 2, 3, 4] (vecResize [1, 2, 3, 4] 2 0) 2 =
        .error Fault.outOfRange ∧
      BTree.splitChild Access.checked (BTreeNode.mk false [] [BTreeNode.mk true [1, 2, 3, 4] []]) 0 =
        .error Fault.outOfRange ∧
      BTree.insert Access.checked { root := BTreeNode.mk true [1, 2, 3, 4] [], t := 3 } 5 =
        .error Fault.outOfRange :=
  ⟨rfl, rfl, rfl, rfl⟩

/-- C5, as stated, fails: after inserting `7, 7` the root holds the keys `[7, 7]`, which are not
strictly ascending. -/
theorem nodesStrict_counterexample :
    BTree.insertAll Access.raw (BTree.new 3) [7, 7] =
        .ok { root := BTreeNode.mk true [7, 7] [], t := 3 } ∧
      ¬ NodesStrict (BTreeNode.mk true [7, 7] []) := by
  refine ⟨rfl, ?_⟩
  intro h
  have := h (BTreeNode.mk true [7, 7] []) (self_mem_allNodes _)
  simp at this

/-- C5, amended. Ordering within nodes: whatever finite sequence of integers (duplicates
included) is inserted into a freshly constructed tree, in the tree that results the keys of every
node are in ascending order, equal values allowed. -/
theorem nodesSorted_after_inserts (degree : Int) (ks : List Int) :
    ∃ tr, BTree.insertAll Access.raw (BTree.new degree) ks = .ok tr ∧
      ∀ n ∈ allNodes tr.root, n.keys.Pairwise (fun x y => x ≤ y) := by
  obtain ⟨tr, hrun, _, hw, _⟩ := insertAll_wellFormed ks (BTree.new degree) (wellFormed_new degree)
  exact ⟨tr, hrun, hw.nodesSorted⟩
/-- C6. Root growth: on a tree reachable from a freshly constructed one, `insert` runs without
fault; when the root holds exactly `MAX_KEYS = 4` keys the new root is the new non-leaf node `s`
(whose first child is the old root, cut down by the split) with the key inserted below it, and the
depth of the tree is one more than before; otherwise the new root is the old root with the key
inserted below it, its leaf flag is unchanged and the depth is unchanged. -/
theorem root_growth (tr : BTree) (k : Int) (hr : Reachable tr) :
    ∃ tr1, BTree.insert Access.raw tr k = .ok tr1 ∧
      (tr.root.keys.length = MAX_KEYS →
        (∃ s, BTree.splitChild Access.raw (BTreeNode.mk false [] [tr.root]) 0 = .ok s ∧
          s.children[0]? = some (splitLeft tr.root) ∧
          BTree.insertNonFull Access.raw s k = .ok tr1.root) ∧
        tr1.root.leaf = false ∧ height tr1.root = height tr.root + 1) ∧
      (tr.root.keys.length ≠ MAX_KEYS →
        BTree.insertNonFull Access.raw tr.root k = .ok tr1.root ∧
        tr1.root.leaf = tr.root.leaf ∧ height tr1.root = height tr.root) := by
  obtain ⟨h, hs, hmin, hsort⟩ := reachable_wellFormed hr
  obtain ⟨tr1, hrun, _, hs1, _, _⟩ := insert_spec tr k h hs hmin hsort
  have hh := Shaped.height_eq h _ hs
  refine ⟨tr1, hrun, ?_, ?_⟩
  · intro hfull
    simp only [hfull, if_true] at hs1
    have hh1 := Shaped.height_eq (h + 1) _ hs1
    obtain ⟨mid, _, hsplit, _, _⟩ := rootSplit_spec h tr.root hs hfull
    refine ⟨⟨_, hsplit, by simp, ?_⟩, hs1.1, by rw [hh1, hh]⟩
    simp only [BTree.insert, hfull, if_true, hsplit, bind, Except.bind, pure,
      Except.pure] at hrun
    cases hnf : BTree.insertNonFull Access.raw
        (BTreeNode.mk false [mid] [splitLeft tr.root, splitRight tr.root]) k with
    | error e => rw [hnf] at hrun; cases hrun
    | ok r2 =>
      rw [hnf] at hrun
      simp only [Except.ok.injEq] at hrun
      rw [← hrun]
  · intro hfull
    simp only [hfull, if_false] at hs1
    have hh1 := Shaped.height_eq h _ hs1
    refine ⟨?_, Shaped.leaf_eq hs1 hs, by rw [hh1, hh]⟩
    simp only [BTree.insert, hfull, if_false, bind, Except.bind, pure, Except.pure] at hrun
    cases hnf : BTree.insertNonFull Access.raw tr.root k with
    | error e => rw [hnf] at hrun; cases hrun
    | ok r2 =>
      rw [hnf] at hrun
      simp only [Except.ok.injEq] at hrun
      rw [← hrun]

/-- Witness of C6: the full root leaf `[1, 2, 3, 4]` and the key `5`. -/
theorem root_growth_witness :
    Reachable { root := BTreeNode.mk true [1, 2, 3, 4] [], t := 3 } ∧
    ∃ tr1, BTree.insert Access.raw { root := BTreeNode.mk true [1, 2, 3, 4] [], t := 3 } 5 =
        .ok tr1 ∧
      ((BTreeNode.mk true [1, 2, 3, 4] []).keys.length = MAX_KEYS →
        (∃ s, BTree.splitChild Access.raw
            (BTreeNode.mk false [] [BTreeNode.mk true [1, 2, 3, 4] []]) 0 = .ok s ∧
          s.children[0]? = some (splitLeft (BTreeNode.mk true [1, 2, 3, 4] [])) ∧
          BTree.insertNonFull Access.raw s 5 = .ok tr1.root) ∧
        tr1.root.leaf = false ∧
        height tr1.root = height (BTreeNode.mk true [1, 2, 3, 4] []) + 1) ∧
      ((BTreeNode.mk true [1, 2, 3, 4] []).keys.length ≠ MAX_KEYS →
        BTree.insertNonFull Access.raw (BTreeNode.mk true [1, 2, 3, 4] []) 5 = .ok tr1.root ∧
        tr1.root.leaf = (BTreeNode.mk true [1, 2, 3, 4] []).leaf ∧
        height tr1.root = height (BTreeNode.mk true [1, 2, 3, 4] [])) :=
  ⟨⟨3, [1, 2, 3, 4], rfl⟩,
    root_growth { root := BTreeNode.mk true [1, 2, 3, 4] [], t := 3 } 5 ⟨3, [1, 2, 3, 4], rfl⟩⟩

/-- C7, as stated, fails: the split that `insert` performs when `5` is inserted into the tree
holding `1, 2, 3, 4` is applied to a node of 4 keys, not 5, and the new sibling `z` receives the
single key `4`, not 2 keys. -/
theorem split_shape_counterexample :
    BTree.insertAll Access.raw (BTree.new 3) [1, 2, 3, 4] =
        .ok { root := BTreeNode.mk true [1, 2, 3, 4] [], t := 3 } ∧
      BTree.splitChild Access.raw (BTreeNode.mk false [] [BTreeNode.mk true [1, 2, 3, 4] []]) 0 =
        .ok (BTreeNode.mk false [3] [BTreeNode.mk true [1, 2] [], BTreeNode.mk true [4] []]) ∧
      (BTreeNode.mk true [1, 2, 3, 4] []).keys.length ≠ MAX_KEYS + 1 ∧
      (BTreeNode.mk true [4] []).keys.length ≠ MAX_KEYS / 2 :=
  ⟨rfl, rfl, by decide, by decide⟩

/-- Shape of the result of `splitChild` on a child `y` of four keys, given the position of `y`
in a parent with room for the promoted key and the number of children of a non-leaf `y`. -/
theorem splitChild_full_shape (parent y : BTreeNode) (i : Nat)
    (hy : parent.children[i]? = some y) (hfull : y.keys.length = MAX_KEYS)
    (hi : i ≤ parent.keys.length)
    (hch : y.leaf = false → y.children.length = y.keys.length + 1) :
    ∃ a b m d p1, y.keys = [a, b, m, d] ∧
      BTree.splitChild Access.raw parent i = .ok p1 ∧
      p1.keys[i]? = some m ∧
      p1.children[i]? = some (BTreeNode.mk y.leaf [a, b]
        (if y.leaf then y.children else y.children.take 3)) ∧
      p1.children[i + 1]? = some (BTreeNode.mk y.leaf [d]
        (if y.leaf then [] else y.children.drop 3)) ∧
      (y.leaf = false → (y.children.take 3).length = 3 ∧ (y.children.drop 3).length = 2) := by
  have hlen : i < parent.children.length := by
    rcases Nat.lt_or_ge i parent.children.length with h | h
    · exact h
    · rw [List.getElem?_eq_none h] at hy; cases hy
  have hch3 : y.leaf = false → 3 ≤ y.children.length := by
    intro hl
    rw [hch hl, hfull]
    decide
  obtain ⟨mid, hmid, hsplit⟩ := splitChild_raw parent y i hy hfull hi hch3
  obtain ⟨yl, yks, ycs⟩ := y
  simp only [BTreeNode.keys_mk, BTreeNode.leaf_mk, BTreeNode.children_mk, MAX_KEYS] at *
  match yks, hfull with
  | [a, b, m, d], _ =>
    simp only [List.getElem?_cons_succ, List.getElem?_cons_zero, Option.some.injEq] at hmid
    subst hmid
    refine ⟨a, b, m, d, _, rfl, hsplit, ?_, ?_, ?_, ?_⟩
    · simp only [BTreeNode.keys_mk]
      rw [List.getElem?_append_right (by simp)]
      simp [List.length_take, Nat.min_eq_left hi]
    · simp only [BTreeNode.children_mk]
      rw [List.getElem?_append_right (by simp)]
      simp [List.length_take, Nat.min_eq_left (Nat.le_of_lt hlen), splitLeft]
    · simp only [BTreeNode.children_mk]
      rw [List.getElem?_append_right (by simp)]
      simp [List.length_take, Nat.min_eq_left (Nat.le_of_lt hlen), splitRight]
    · intro hl
      have := hch hl
      simp at this
      simp [this]

/-- C8. Effect of `splitChild` on the parent: when `children[i]` is a full child `y`, the call
runs without fault; the parent has one more key and one more child; the middle key `y.keys[2]` is
at `keys[i]`, `y` (cut down) is still at `children[i]`, the new sibling `z` is at
`children[i + 1]` and has the leaf flag of `y`; the keys before index `i` and from index `i` on,
and the children before index `i` and after index `i`, are unchanged and in their order. -/
theorem splitChild_parent_effect (parent y : BTreeNode) (i : Nat)
    (hy : parent.children[i]? = some y) (hfull : y.keys.length = MAX_KEYS)
    (hi : i ≤ parent.keys.length)
    (hch : y.leaf = false → y.children.length = y.keys.length + 1) :
    ∃ p1 mid z, BTree.splitChild Access.raw parent i = .ok p1 ∧
      y.keys[2]? = some mid ∧
      p1.leaf = parent.leaf ∧
      p1.keys.length = parent.keys.length + 1 ∧
      p1.children.length = parent.children.length + 1 ∧
      p1.keys[i]? = some mid ∧
      p1.children[i]? = some (splitLeft y) ∧
      p1.children[i + 1]? = some z ∧ z.leaf = y.leaf ∧ z = splitRight y ∧
      p1.keys = parent.keys.take i ++ mid :: parent.keys.drop i ∧
      p1.children = parent.children.take i ++ splitLeft y :: z :: parent.children.drop (i + 1) := by
  have hlen : i < parent.children.length := by
    rcases Nat.lt_or_ge i parent.children.length with h | h
    · exact h
    · rw [List.getElem?_eq_none h] at hy; cases hy
  have hch3 : y.leaf = false → 3 ≤ y.children.length := by
    intro hl
    rw [hch hl, hfull]
    decide
  obtain ⟨mid, hmid, hsplit⟩ := splitChild_raw parent y i hy hfull hi hch3
  refine ⟨_, mid, splitRight y, hsplit, hmid, rfl, ?_, ?_, ?_, ?_, ?_, rfl, rfl, rfl, rfl⟩
  · simp [List.length_take, Nat.min_eq_left hi]; omega
  · simp [List.length_take, Nat.min_eq_left (Nat.le_of_lt hlen)]; omega
  · simp only [BTreeNode.keys_mk]
    rw [List.getElem?_append_right (by simp)]
    simp [List.length_take, Nat.min_eq_left hi]
  · simp only [BTreeNode.children_mk]
    rw [List.getElem?_append_right (by simp)]
    simp [List.length_take, Nat.min_eq_left (Nat.le_of_lt hlen)]
  · simp only [BTreeNode.children_mk]
    rw [List.getElem?_append_right (by simp)]
    simp [List.length_take, Nat.min_eq_left (Nat.le_of_lt hlen)]

/-- Witness of C8: the full middle child `[11, 12, 13, 14]` of a parent with the keys
`[10, 20]`. -/
theorem splitChild_parent_effect_witness :
    (BTreeNode.mk false [10, 20] [BTreeNode.mk true [1, 2] [],
        BTreeNode.mk true [11, 12, 13, 14] [], BTreeNode.mk true [21] []]).children[1]? =
        some (BTreeNode.mk true [11, 12, 13, 14] []) ∧
    ∃ p1 mid z, BTree.splitChild Access.raw (BTreeNode.mk false [10, 20]
        [BTreeNode.mk true [1, 2] [], BTreeNode.mk true [11, 12, 13, 14] [],
          BTreeNode.mk true [21] []]) 1 = .ok p1 ∧
      (BTreeNode.mk true [11, 12, 13, 14] []).keys[2]? = some mid ∧
      p1.leaf = false ∧ p1.keys.length = 3 ∧ p1.children.length = 4 ∧
      p1.keys[1]? = some mid ∧
      p1.children[1]? = some (splitLeft (BTreeNode.mk true [11, 12, 13, 14] [])) ∧
      p1.children[2]? = some z ∧ z.leaf = true ∧
      z = splitRight (BTreeNode.mk true [11, 12, 13, 14] []) ∧
      p1.keys = [10] ++ mid :: [20] ∧
      p1.children = [BTreeNode.mk true [1, 2] []] ++
        splitLeft (BTreeNode.mk true [11, 12, 13, 14] []) :: z :: [BTreeNode.mk true [21] []] :=
  ⟨rfl, splitChild_parent_effect
    (BTreeNode.mk false [10, 20] [BTreeNode.mk true [1, 2] [],
      BTreeNode.mk true [11, 12, 13, 14] [], BTreeNode.mk true [21] []])
    (BTreeNode.mk true [11, 12, 13, 14] []) 1 rfl rfl (by decide)
    (fun hl => absurd hl (by decide))⟩


/-- C9. Scenario: inserting `10, 20, 5, 6` into a freshly constructed tree keeps a single leaf
root, which ends with the keys `[5, 6, 10, 20]`; inserting `12` next splits the root and gives a
non-leaf root with the one key `10` and two leaf children, `[5, 6]` on the left and `[12, 20]`
on the right. -/
theorem scenario_10_20_5_6_12 (degree : Int) :
    BTree.insertAll Access.raw (BTree.new degree) [10] =
        .ok { root := BTreeNode.mk true [10] [], t := degree } ∧
      BTree.insertAll Access.raw (BTree.new degree) [10, 20] =
        .ok { root := BTreeNode.mk true [10, 20] [], t := degree } ∧
      BTree.insertAll Access.raw (BTree.new degree) [10, 20, 5] =
        .ok { root := BTreeNode.mk true [5, 10, 20] [], t := degree } ∧
      BTree.insertAll Access.raw (BTree.new degree) [10, 20, 5, 6] =
        .ok { root := BTreeNode.mk true [5, 6, 10, 20] [], t := degree } ∧
      BTree.insertAll Access.raw (BTree.new degree) [10, 20, 5, 6, 12] =
        .ok { root := BTreeNode.mk false [10]
                [BTreeNode.mk true [5, 6] [], BTreeNode.mk true [12, 20] []],
              t := degree } := by
  refine ⟨?_, ?_, ?_, ?_, ?_⟩ <;>
    simp [BTree.insertAll, BTree.insert, BTree.insertNonFull, BTree.insertNonFullAux, BTree.new,
      height, heightList, MAX_KEYS, bind, Except.bind, pure, Except.pure, shiftLoop, scanLoop,
      vecGet, vecSet, BTree.splitChild, vecFrom, vecResize, vecInsert, vecGetStale]

/-- C10, as stated, fails: after `7` is inserted five times the leaves of the tree hold 4
occurrences of `7`, not 5; the fifth is in the non-leaf root. -/
theorem duplicates_counterexample :
    BTree.insertAll Access.raw (BTree.new 3) [7, 7, 7, 7, 7] =
        .ok { root := BTreeNode.mk false [7]
                [BTreeNode.mk true [7, 7] [], BTreeNode.mk true [7, 7] []],
              t := 3 } ∧
      (leafKeys (BTreeNode.mk false [7]
        [BTreeNode.mk true [7, 7] [], BTreeNode.mk true [7, 7] []])).count 7 = 4 ∧
      (leafKeys (BTreeNode.mk false [7]
        [BTreeNode.mk true [7, 7] [], BTreeNode.mk true [7, 7] []])).count 7 ≠ 5 :=
  ⟨rfl, rfl, by decide⟩

/-- C10, amended. Duplicates: inserting the same integer `k` five times into a freshly
constructed tree runs without fault and gives a non-leaf root with the one key `k` and two leaf
children `[k, k]` and `[k, k]`: the tree holds 5 occurrences of `k` in its nodes, 4 of them in the
leaves, and the keys of every node are in ascending order with the equal values adjacent. -/
theorem duplicates_five (degree k : Int) :
    BTree.insertAll Access.raw (BTree.new degree) [k, k, k, k, k] =
        .ok { root := BTreeNode.mk false [k]
                [BTreeNode.mk true [k, k] [], BTreeNode.mk true [k, k] []],
              t := degree } ∧
      (inorder (BTreeNode.mk false [k]
        [BTreeNode.mk true [k, k] [], BTreeNode.mk true [k, k] []])).count k = 5 ∧
      (leafKeys (BTreeNode.mk false [k]
        [BTreeNode.mk true [k, k] [], BTreeNode.mk true [k, k] []])).count k = 4 ∧
      NodesSorted (BTreeNode.mk false [k]
        [BTreeNode.mk true [k, k] [], BTreeNode.mk true [k, k] []]) := by
  refine ⟨?_, ?_, ?_, ?_⟩
  · have h0 := leafStep Access.raw k [] 0 (by simp)
    have h1 := leafStep Access.raw k [k] 0 (by simp)
    have h2 := leafStep Access.raw k [k, k] 0 (by simp)
    have h3 := leafStep Access.raw k [k, k, k] 0 (by simp)
    have h4 := leafStep Access.raw k [k] 0 (by simp)
    simp only [List.nil_append, List.cons_append, Nat.zero_add] at h0 h1 h2 h3 h4
    have hsplit : BTree.splitChild Access.raw
        (BTreeNode.mk false [] [BTreeNode.mk true [k, k, k, k] []]) 0 =
        .ok (BTreeNode.mk false [k] [BTreeNode.mk true [k, k] [], BTreeNode.mk true [k] []]) := rfl
    have hnf : BTree.insertNonFullAux Access.raw 2
        (BTreeNode.mk false [k] [BTreeNode.mk true [k, k] [], BTreeNode.mk true [k] []]) k =
        .ok (BTreeNode.mk false [k] [BTreeNode.mk true [k, k] [], BTreeNode.mk true [k, k] []]) := by
      rw [BTree.insertNonFullAux]
      simp [scanLoop, vecGet, bind, Except.bind, pure, Except.pure, MAX_KEYS, h4]
    simp [BTree.insertAll, BTree.insert, BTree.insertNonFull, BTree.new, height, heightList,
      MAX_KEYS, bind, Except.bind, pure, Except.pure, h0, h1, h2, h3, hsplit, hnf]
  · simp [inorder, inorderAux]
  · simp [leafKeys, allNodes, allNodesList]
  · intro n hn
    simp only [allNodes, allNodesList, List.append_nil, List.mem_cons, List.mem_singleton,
      List.singleton_append, List.not_mem_nil, or_false] at hn
    rcases hn with h | h | h <;> subst h <;> simp

/-! ## The steps of a run: lemmas -/

/-- The non-leaf branch of `insertNonFull` is `descend` followed by the recursive call on the
child it selects and the update of that child in place. -/
theorem insertNonFullAux_nonleaf (a : Access) (fuel : Nat) (node : BTreeNode) (k : Int)
    (hleaf : node.leaf = false) :
    BTree.insertNonFullAux a (fuel + 1) node k =
      (match BTree.descend a node k with
       | .error e => .error e
       | .ok d =>
         match BTree.insertNonFullAux a fuel d.child k with
         | .error e => .error e
         | .ok c2 => .ok (BTreeNode.mk d.node1.leaf d.node1.keys (d.node1.children.set d.index c2))) := by
  rw [BTree.insertNonFullAux]
  simp only [hleaf, Bool.false_eq_true, if_false, BTree.descend, bind, Except.bind, pure,
    Except.pure]
  cases scanLoop k node.keys node.keys.length with
  | error e => rfl
  | ok i =>
    simp only []
    cases vecGet node.children i with
    | error e => rfl
    | ok c =>
      simp only []
      by_cases hfull : c.keys.length = MAX_KEYS
      · simp only [hfull, if_true]
        cases BTree.splitChild a node i with
        | error e => rfl
        | ok node1 =>
          simp only []
          cases vecGet node1.keys i with
          | error e => rfl
          | ok sep =>
            simp only []
            cases vecGet node1.children (if k > sep then i + 1 else i) with
            | error e => rfl
            | ok c1 =>
              simp only []
              cases BTree.insertNonFullAux a fuel c1 k <;> rfl
      · simp only [hfull, if_false, hleaf]
        cases BTree.insertNonFullAux a fuel c k <;> rfl

/-- What `descend` does on a node with one child more than keys whose full non-leaf children
have at least three children. -/
theorem descend_raw (node : BTreeNode) (k : Int)
    (hfan : node.children.length = node.keys.length + 1)
    (hch : ∀ c ∈ node.children, c.leaf = false → c.keys.length = MAX_KEYS →
      3 ≤ c.children.length) :
    ∃ L R cl c cr, node.keys = L ++ R ∧ node.children = cl ++ c :: cr ∧ cl.length = L.length ∧
      scanLoop k node.keys node.keys.length = .ok L.length ∧
      (∀ x ∈ R, k < x) ∧ (∀ x, L.getLast? = some x → x ≤ k) ∧
      (c.keys.length ≠ MAX_KEYS →
        BTree.descend Access.raw node k =
          .ok { scanned := L.length, didSplit := false, node1 := node, index := L.length,
                child := c }) ∧
      (c.keys.length = MAX_KEYS → ∃ mid, c.keys[2]? = some mid ∧
        BTree.splitChild Access.raw node L.length =
          .ok (BTreeNode.mk node.leaf (L ++ mid :: R) (cl ++ splitLeft c :: splitRight c :: cr)) ∧
        BTree.descend Access.raw node k =
          .ok { scanned := L.length, didSplit := true,
                node1 := BTreeNode.mk node.leaf (L ++ mid :: R)
                  (cl ++ splitLeft c :: splitRight c :: cr),
                index := if k > mid then L.length + 1 else L.length,
                child := if k > mid then splitRight c else splitLeft c }) := by
  obtain ⟨l, ks, cs⟩ := node
  simp only [BTreeNode.leaf_mk, BTreeNode.children_mk, BTreeNode.keys_mk] at hfan hch ⊢
  obtain ⟨L, R, hks, hscan, hR, hL⟩ := scanLoop_spec k ks []
  simp only [List.append_nil] at hscan
  have hi : L.length < cs.length := by
    rw [hfan, hks]; simp; omega
  obtain ⟨cl, c, cr, hcs, hcl⟩ := exists_split_at cs L.length hi
  subst hks; subst hcs
  have hget : vecGet (cl ++ c :: cr) L.length = .ok c := by
    rw [← hcl]; exact vecGet_append_length cl cr c
  refine ⟨L, R, cl, c, cr, rfl, rfl, hcl, hscan, hR, hL, ?_, ?_⟩
  · intro hfull
    simp only [BTree.descend, BTreeNode.keys_mk, BTreeNode.children_mk, hscan, hget, hfull,
      if_false, bind, Except.bind, pure, Except.pure]
  · intro hfull
    obtain ⟨mid, hmid, hsplit⟩ := splitChild_raw (BTreeNode.mk l (L ++ R) (cl ++ c :: cr)) c
      L.length (by
        simp only [BTreeNode.children_mk]; rw [← hcl]
        rw [List.getElem?_append_right (Nat.le_refl _)]; simp)
      hfull (by simp) (fun hl => hch c (by simp) hl hfull)
    simp only [BTreeNode.keys_mk, BTreeNode.children_mk, BTreeNode.leaf_mk, List.take_left,
      List.drop_left] at hsplit
    rw [← hcl, List.take_left, drop_append_succ, hcl] at hsplit
    refine ⟨mid, hmid, hsplit, ?_⟩
    have hsep : vecGet (L ++ mid :: R) L.length = .ok mid := vecGet_append_length L R mid
    have hg0 : vecGet (cl ++ splitLeft c :: splitRight c :: cr) L.length = .ok (splitLeft c) := by
      rw [← hcl]; exact vecGet_append_length cl _ _
    have hg1 : vecGet (cl ++ splitLeft c :: splitRight c :: cr) (L.length + 1) =
        .ok (splitRight c) := by
      rw [← hcl]; exact vecGet_append_succ cl cr _ _
    by_cases hk : k > mid
    · simp only [BTree.descend, BTreeNode.keys_mk, BTreeNode.children_mk, hscan, hget, hfull,
        if_true, hsplit, hsep, hk, hg1, bind, Except.bind, pure, Except.pure]
    · simp only [BTree.descend, BTreeNode.keys_mk, BTreeNode.children_mk, hscan, hget, hfull,
        if_true, hsplit, hsep, hk, if_false, hg0, bind, Except.bind, pure, Except.pure]

theorem Shaped.three_children {h : Nat} {c : BTreeNode} (hs : Shaped h c)
    (hl : c.leaf = false) (hfull : c.keys.length = MAX_KEYS) : 3 ≤ c.children.length := by
  cases h with
  | zero => rw [hs.1] at hl; cases hl
  | succ h => rw [hs.2.2.1, hfull]; decide

theorem splitLeft_keys_length (c : BTreeNode) (hfull : c.keys.length = MAX_KEYS) :
    (splitLeft c).keys.length = 2 := by
  simp [splitLeft, hfull, MAX_KEYS]

theorem splitRight_keys_length (c : BTreeNode) (hfull : c.keys.length = MAX_KEYS) :
    (splitRight c).keys.length = 1 := by
  simp [splitRight, hfull, MAX_KEYS]

/-- A split of a full child found at index `cl.length` has the shape `SplitsFourIntoTwoAndOne`. -/
theorem splitsFourIntoTwoAndOne_of_split (node c : BTreeNode) (cl cr : List BTreeNode)
    (ks : List Int) (hch : node.children = cl ++ c :: cr) (hfull : c.keys.length = MAX_KEYS)
    (hsplit : BTree.splitChild Access.raw node cl.length =
      .ok (BTreeNode.mk node.leaf ks (cl ++ splitLeft c :: splitRight c :: cr))) :
    SplitsFourIntoTwoAndOne node cl.length := by
  refine ⟨c, _, splitLeft c, splitRight c, ?_, hfull, hsplit, ?_,
    splitLeft_keys_length c hfull, ?_, splitRight_keys_length c hfull⟩
  · rw [hch, List.getElem?_append_right (Nat.le_refl _)]; simp
  · simp only [BTreeNode.children_mk]
    rw [List.getElem?_append_right (Nat.le_refl _)]; simp
  · simp only [BTreeNode.children_mk]
    rw [List.getElem?_append_right (by omega)]; simp

/-- The calls made by `insertNonFull` on a shaped subtree whose root has room: the run has no
fault, every call of `insertNonFull` is on a node with room, and every call of `splitChild` is
on a child of four keys. -/
theorem insertNonFullEvents_spec (k : Int) : ∀ (h fuel : Nat) (node : BTreeNode),
    Shaped h node → node.keys.length < MAX_KEYS → h < fuel →
    ∃ evs, BTree.insertNonFullEvents Access.raw fuel node k = .ok evs ∧
      Event.call node ∈ evs ∧
      (∀ n, Event.call n ∈ evs → n.keys.length < MAX_KEYS) ∧
      (∀ p i, Event.split p i ∈ evs → SplitsFourIntoTwoAndOne p i) := by
  intro h
  induction h with
  | zero =>
    intro fuel node hs hlt hfuel
    obtain ⟨f, rfl⟩ : ∃ f, fuel = f + 1 := ⟨fuel - 1, by omega⟩
    obtain ⟨l, ks, cs⟩ := node
    have h1 : l = true := hs.1
    subst h1
    obtain ⟨L, R, _, hrun, _, _⟩ := insertNonFullAux_leaf Access.raw k f ks cs
    refine ⟨[Event.call (BTreeNode.mk true ks cs)], ?_, by simp, ?_, ?_⟩
    · simp only [BTree.insertNonFullEvents, BTreeNode.leaf_mk, if_true, hrun, bind, Except.bind,
        pure, Except.pure]
    · intro n hn
      simp only [List.mem_singleton, Event.call.injEq] at hn
      subst hn; exact hlt
    · intro p i hp
      simp at hp
  | succ h ih =>
    intro fuel node hs hlt hfuel
    obtain ⟨f, rfl⟩ : ∃ f, fuel = f + 1 := ⟨fuel - 1, by omega⟩
    have hf : h < f := by omega
    have hleaf : node.leaf = false := hs.1
    obtain ⟨L, R, cl, c, cr, hks, hcs, hcl, _, _, _, hno, hyes⟩ := descend_raw node k hs.2.2.1
      (fun c hc hl hfull => (hs.2.2.2 c hc).2.three_children hl hfull)
    have hc : 1 ≤ c.keys.length ∧ Shaped h c := hs.2.2.2 c (by rw [hcs]; simp)
    by_cases hfull : c.keys.length = MAX_KEYS
    · obtain ⟨mid, _, hsplit, hdesc⟩ := hyes hfull
      obtain ⟨a, b, m, d, _, hsy, hsz, _, hyl, hzr, _⟩ := split_shaped h c hc.2 hfull
      have hchild : Shaped h (if k > mid then splitRight c else splitLeft c) ∧
          (if k > mid then splitRight c else splitLeft c).keys.length < MAX_KEYS := by
        by_cases hk : k > mid
        · simp only [hk, if_true]; exact ⟨hsz, by simp [hzr, MAX_KEYS]⟩
        · simp only [hk, if_false]; exact ⟨hsy, by simp [hyl, MAX_KEYS]⟩
      obtain ⟨rest, hrest, _, hcalls, hsplits⟩ := ih f _ hchild.1 hchild.2 hf
      refine ⟨Event.call node :: ([Event.split node L.length] ++ rest), ?_, by simp, ?_, ?_⟩
      · simp only [BTree.insertNonFullEvents, hleaf, Bool.false_eq_true, if_false, hdesc, hrest,
          bind, Except.bind, pure, Except.pure, if_true]
      · intro n hn
        simp only [List.mem_cons, List.mem_append, List.mem_singleton, Event.call.injEq,
          List.not_mem_nil, or_false, false_or, reduceCtorEq] at hn
        rcases hn with h1 | h1
        · subst h1; exact hlt
        · exact hcalls n h1
      · intro p i hp
        simp only [List.mem_cons, List.mem_append, List.mem_singleton, Event.split.injEq,
          List.not_mem_nil, or_false, false_or, reduceCtorEq] at hp
        rcases hp with ⟨h1, h2⟩ | h1
        · subst h1; subst h2
          rw [← hcl] at hsplit ⊢
          exact splitsFourIntoTwoAndOne_of_split _ c cl cr _ hcs hfull hsplit
        · exact hsplits p i h1
    · have hdesc := hno hfull
      have hclt : c.keys.length < MAX_KEYS := lt_of_le_of_ne hc.2.keys_le hfull
      obtain ⟨rest, hrest, _, hcalls, hsplits⟩ := ih f c hc.2 hclt hf
      refine ⟨Event.call node :: ([] ++ rest), ?_, by simp, ?_, ?_⟩
      · simp only [BTree.insertNonFullEvents, hleaf, Bool.false_eq_true, if_false, hdesc, hrest,
          bind, Except.bind, pure, Except.pure]
      · intro n hn
        simp only [List.mem_cons, List.nil_append, Event.call.injEq] at hn
        rcases hn with h1 | h1
        · subst h1; exact hlt
        · exact hcalls n h1
      · intro p i hp
        simp only [List.mem_cons, List.nil_append, false_or, reduceCtorEq] at hp
        exact hsplits p i hp

/-- The calls made by `insert` on a well-formed tree. -/
theorem insertEvents_spec (tr : BTree) (k : Int) (h : Nat) (hs : Shaped h tr.root) :
    ∃ evs, BTree.insertEvents Access.raw tr k = .ok evs ∧
      (∃ n, Event.call n ∈ evs) ∧
      (∀ n, Event.call n ∈ evs → n.keys.length < MAX_KEYS) ∧
      (∀ p i, Event.split p i ∈ evs → SplitsFourIntoTwoAndOne p i) := by
  by_cases hfull : tr.root.keys.length = MAX_KEYS
  · obtain ⟨mid, _, hsplit, hs1, _⟩ := rootSplit_spec h tr.root hs hfull
    have hh := Shaped.height_eq (h + 1) _ hs1
    obtain ⟨rest, hrest, hmem, hcalls, hsplits⟩ :=
      insertNonFullEvents_spec k (h + 1) (h + 2) _ hs1 (by simp [MAX_KEYS]) (by omega)
    refine ⟨Event.split (BTreeNode.mk false [] [tr.root]) 0 :: rest, ?_, ⟨_, List.mem_cons_of_mem _ hmem⟩,
      ?_, ?_⟩
    · simp only [BTree.insertEvents, hfull, if_true, hsplit, hh, hrest, bind, Except.bind, pure,
        Except.pure]
    · intro n hn
      simp only [List.mem_cons, false_or, reduceCtorEq] at hn
      exact hcalls n hn
    · intro p i hp
      simp only [List.mem_cons, Event.split.injEq] at hp
      rcases hp with ⟨h1, h2⟩ | h1
      · subst h1; subst h2
        exact splitsFourIntoTwoAndOne_of_split (BTreeNode.mk false [] [tr.root]) tr.root [] []
          [mid] rfl hfull (by simpa using hsplit)
      · exact hsplits p i h1
  · have hlt : tr.root.keys.length < MAX_KEYS := lt_of_le_of_ne hs.keys_le hfull
    have hh := Shaped.height_eq h _ hs
    obtain ⟨evs, hevs, hmem, hcalls, hsplits⟩ :=
      insertNonFullEvents_spec k h (h + 1) _ hs hlt (by omega)
    refine ⟨evs, ?_, ⟨_, hmem⟩, hcalls, hsplits⟩
    simp only [BTree.insertEvents, hfull, if_false, hh, hevs]

theorem insertAll_append (a : Access) : ∀ (ks : List Int) (tr : BTree) (k : Int),
    BTree.insertAll a tr (ks ++ [k]) =
      (match BTree.insertAll a tr ks with
       | .error e => .error e
       | .ok tr0 => BTree.insert a tr0 k) := by
  intro ks
  induction ks with
  | nil =>
    intro tr k
    simp only [List.nil_append, BTree.insertAll, bind, Except.bind]
    cases BTree.insert a tr k <;> rfl
  | cons k0 ks ih =>
    intro tr k
    simp only [List.cons_append, BTree.insertAll, bind, Except.bind]
    cases BTree.insert a tr k0 with
    | error e => rfl
    | ok tr1 => exact ih tr1 k

/-- In a shaped subtree whose root has a key, every node has a key and every non-leaf node has at
least two children. -/
theorem Shaped.occupancy : ∀ (h : Nat) (n : BTreeNode), Shaped h n → 1 ≤ n.keys.length →
    ∀ m ∈ allNodes n, 1 ≤ m.keys.length ∧ (m.leaf = false → 2 ≤ m.children.length) := by
  intro h
  induction h with
  | zero =>
    intro n hs hk m hm
    obtain ⟨l, ks, cs⟩ := n
    have hc : cs = [] := hs.2.1
    subst hc
    simp [allNodes, allNodesList] at hm
    subst hm
    refine ⟨hk, ?_⟩
    intro hl
    rw [hs.1] at hl
    cases hl
  | succ h ih =>
    intro n hs hk m hm
    obtain ⟨l, ks, cs⟩ := n
    rcases mem_allNodes.1 hm with h1 | ⟨c, hc, hmc⟩
    · subst h1
      refine ⟨hk, fun _ => ?_⟩
      rw [hs.2.2.1]
      omega
    · exact ih c (hs.2.2.2 c hc).2 (hs.2.2.2 c hc).1 m hmc

/-- In a shaped subtree the leaf flag of a node is set exactly when it has no children. -/
theorem Shaped.leaf_iff {h : Nat} {n : BTreeNode} (hs : Shaped h n) :
    n.leaf = true ↔ n.children = [] := by
  cases h with
  | zero => exact ⟨fun _ => hs.2.1, fun _ => hs.1⟩
  | succ h =>
    constructor
    · intro hl; rw [hs.1] at hl; cases hl
    · intro hc
      have := hs.2.2.1
      rw [hc] at this
      simp at this

theorem keyCount_mk (l : Bool) (ks : List Int) (cs : List BTreeNode) :
    keyCount (BTreeNode.mk l ks cs) = ks.length + (cs.map keyCount).sum := by
  have h : ∀ cs : List BTreeNode,
      ((allNodesList cs).map (fun m => m.keys.length)).sum = (cs.map keyCount).sum := by
    intro cs
    induction cs with
    | nil => simp [allNodesList]
    | cons c cs ih => simp [allNodesList, ih, keyCount]
  simp [keyCount, allNodes, h]

theorem sum_ge_of_forall (m : Nat) (f : BTreeNode → Nat) : ∀ (cs : List BTreeNode),
    (∀ c ∈ cs, m ≤ f c) → cs.length * m ≤ (cs.map f).sum := by
  intro cs
  induction cs with
  | nil => intro _; simp
  | cons c cs ih =>
    intro hall
    have h1 := hall c (by simp)
    have h2 := ih (fun c' hc' => hall c' (List.mem_cons_of_mem _ hc'))
    simp only [List.length_cons, List.map_cons, List.sum_cons]
    rw [Nat.add_mul]
    omega

/-- A shaped subtree of height `h` whose root has a key stores at least `2 ^ (h + 1) - 1`
keys. -/
theorem Shaped.pow_le_keyCount : ∀ (h : Nat) (n : BTreeNode), Shaped h n → 1 ≤ n.keys.length →
    2 ^ (h + 1) ≤ keyCount n + 1 := by
  intro h
  induction h with
  | zero =>
    intro n _ hk
    obtain ⟨l, ks, cs⟩ := n
    rw [keyCount_mk]
    simp only [BTreeNode.keys_mk] at hk
    simp
    omega
  | succ h ih =>
    intro n hs hk
    obtain ⟨l, ks, cs⟩ := n
    rw [keyCount_mk]
    simp only [BTreeNode.keys_mk] at hk
    have hlen : cs.length = ks.length + 1 := hs.2.2.1
    have hall : ∀ c ∈ cs, 2 ^ (h + 1) - 1 ≤ keyCount c := by
      intro c hc
      have := ih c (hs.2.2.2 c hc).2 (hs.2.2.2 c hc).1
      omega
    have hsum := sum_ge_of_forall (2 ^ (h + 1) - 1) keyCount cs hall
    have hpos : 1 ≤ 2 ^ (h + 1) := Nat.one_le_two_pow
    have h2 : 2 * (2 ^ (h + 1) - 1) ≤ cs.length * (2 ^ (h + 1) - 1) :=
      Nat.mul_le_mul_right _ (by omega)
    have hpow : 2 ^ (h + 1 + 1) = 2 * 2 ^ (h + 1) := by rw [pow_succ]; ring
    omega

mutual
/-- In a shaped subtree every leaf is `h` edges below the root. -/
theorem leafDepths_shaped : ∀ (h : Nat) (n : BTreeNode), Shaped h n →
    ∀ d ∈ leafDepths n, d = h
  | 0, .mk l ks cs, hs, d, hd => by
    have h1 : l = true := hs.1
    subst h1
    simpa [leafDepths] using hd
  | h + 1, .mk l ks cs, hs, d, hd => by
    have h1 : l = false := hs.1
    subst h1
    simp only [leafDepths, Bool.false_eq_true, if_false, List.mem_map] at hd
    obtain ⟨d1, hd1, rfl⟩ := hd
    have := leafDepthsList_shaped h cs (fun c hc => (hs.2.2.2 c hc).2) d1 hd1
    omega
/-- In a list of shaped subtrees of height `h` every leaf is `h` edges below its root. -/
theorem leafDepthsList_shaped : ∀ (h : Nat) (cs : List BTreeNode), (∀ c ∈ cs, Shaped h c) →
    ∀ d ∈ leafDepthsList cs, d = h
  | h, [], _, d, hd => by simp [leafDepthsList] at hd
  | h, c :: cs, hs, d, hd => by
    simp only [leafDepthsList, List.mem_append] at hd
    rcases hd with h1 | h1
    · exact leafDepths_shaped h c (hs c (by simp)) d h1
    · exact leafDepthsList_shaped h cs (fun c' hc' => hs c' (List.mem_cons_of_mem _ hc')) d h1
end

mutual
/-- A shaped subtree has a leaf. -/
theorem leafDepths_ne_nil : ∀ (h : Nat) (n : BTreeNode), Shaped h n → leafDepths n ≠ []
  | 0, .mk l ks cs, hs => by
    have h1 : l = true := hs.1
    subst h1
    simp [leafDepths]
  | h + 1, .mk l ks cs, hs => by
    have h1 : l = false := hs.1
    subst h1
    have hlen : cs.length = ks.length + 1 := hs.2.2.1
    simp only [leafDepths, Bool.false_eq_true, if_false, ne_eq, List.map_eq_nil_iff]
    exact leafDepthsList_ne_nil h cs (fun c hc => (hs.2.2.2 c hc).2)
      (by intro hnil; subst hnil; simp at hlen)
/-- A non-empty list of shaped subtrees has a leaf. -/
theorem leafDepthsList_ne_nil : ∀ (h : Nat) (cs : List BTreeNode), (∀ c ∈ cs, Shaped h c) →
    cs ≠ [] → leafDepthsList cs ≠ []
  | h, [], _, hne => absurd rfl hne
  | h, c :: cs, hs, _ => by
    simp only [leafDepthsList, ne_eq, List.append_eq_nil, not_and]
    intro h1
    exact absurd h1 (leafDepths_ne_nil h c (hs c (by simp)))
end

theorem heightList_le_iff (m : Nat) : ∀ (cs : List BTreeNode),
    heightList cs ≤ m ↔ ∀ c ∈ cs, height c + 1 ≤ m := by
  intro cs
  induction cs with
  | nil => simp [heightList]
  | cons c cs ih => simp [heightList, ih]

theorem height_lt_of_mem {l : Bool} {ks : List Int} {cs : List BTreeNode} {c : BTreeNode}
    (hc : c ∈ cs) : height c < height (BTreeNode.mk l ks cs) := by
  have := (heightList_le_iff (heightList cs) cs).1 (Nat.le_refl _) c hc
  simp only [height]
  omega

theorem heightList_mono {cs1 cs2 : List BTreeNode} (hsub : ∀ c ∈ cs1, c ∈ cs2) :
    heightList cs1 ≤ heightList cs2 := by
  rw [heightList_le_iff]
  intro c hc
  exact (heightList_le_iff (heightList cs2) cs2).1 (Nat.le_refl _) c (hsub c hc)

theorem height_splitLeft_le (c : BTreeNode) : height (splitLeft c) ≤ height c := by
  obtain ⟨l, ks, cs⟩ := c
  simp only [splitLeft, BTreeNode.leaf_mk, BTreeNode.keys_mk, BTreeNode.children_mk, height]
  split
  · exact Nat.le_refl _
  · exact heightList_mono (fun c hc => List.mem_of_mem_take hc)

theorem height_splitRight_le (c : BTreeNode) : height (splitRight c) ≤ height c := by
  obtain ⟨l, ks, cs⟩ := c
  simp only [splitRight, BTreeNode.leaf_mk, BTreeNode.keys_mk, BTreeNode.children_mk, height]
  split
  · simp [heightList]
  · exact heightList_mono (fun c hc => List.mem_of_mem_drop hc)

theorem mem_allNodes_of_child {n c m : BTreeNode} (hc : c ∈ n.children) (hm : m ∈ allNodes c) :
    m ∈ allNodes n := by
  obtain ⟨l, ks, cs⟩ := n
  exact mem_allNodes.2 (Or.inr ⟨c, hc, hm⟩)

theorem ChildrenMatch.child {n c : BTreeNode} (hn : ChildrenMatch n) (hc : c ∈ n.children) :
    ChildrenMatch c :=
  fun m hm hl => hn m (mem_allNodes_of_child hc hm) hl

theorem ChildrenMatch.of_splitLeft {c : BTreeNode} (hc : ChildrenMatch c)
    (hfull : c.keys.length = MAX_KEYS) : ChildrenMatch (splitLeft c) := by
  have hself := hc c (self_mem_allNodes c)
  obtain ⟨l, ks, cs⟩ := c
  simp only [BTreeNode.leaf_mk, BTreeNode.keys_mk, BTreeNode.children_mk, MAX_KEYS] at hself hfull
  intro m hm hl
  simp only [splitLeft, BTreeNode.leaf_mk, BTreeNode.keys_mk, BTreeNode.children_mk] at hm
  rcases mem_allNodes.1 hm with h1 | ⟨c1, hc1, hmc⟩
  · subst h1
    simp only [BTreeNode.leaf_mk] at hl
    subst hl
    have := hself rfl
    simp [this, hfull]
  · have hc1' : c1 ∈ cs := by
      split at hc1
      · exact hc1
      · exact List.mem_of_mem_take hc1
    exact hc m (mem_allNodes.2 (Or.inr ⟨c1, hc1', hmc⟩)) hl

theorem ChildrenMatch.of_splitRight {c : BTreeNode} (hc : ChildrenMatch c)
    (hfull : c.keys.length = MAX_KEYS) : ChildrenMatch (splitRight c) := by
  have hself := hc c (self_mem_allNodes c)
  obtain ⟨l, ks, cs⟩ := c
  simp only [BTreeNode.leaf_mk, BTreeNode.keys_mk, BTreeNode.children_mk, MAX_KEYS] at hself hfull
  intro m hm hl
  simp only [splitRight, BTreeNode.leaf_mk, BTreeNode.keys_mk, BTreeNode.children_mk] at hm
  rcases mem_allNodes.1 hm with h1 | ⟨c1, hc1, hmc⟩
  · subst h1
    simp only [BTreeNode.leaf_mk] at hl
    subst hl
    have := hself rfl
    simp [this, hfull]
  · have hc1' : c1 ∈ cs := by
      split at hc1
      · simp at hc1
      · exact List.mem_of_mem_drop hc1
    exact hc m (mem_allNodes.2 (Or.inr ⟨c1, hc1', hmc⟩)) hl

/-- With enough fuel for the height of the node, `insertNonFull` returns on every subtree whose
non-leaf nodes have one child more than keys. -/
theorem insertNonFullAux_returns (k : Int) : ∀ (fuel : Nat) (node : BTreeNode),
    ChildrenMatch node → height node < fuel →
    ∃ r, BTree.insertNonFullAux Access.raw fuel node k = .ok r := by
  intro fuel
  induction fuel with
  | zero => intro node _ hlt; omega
  | succ f ih =>
    intro node hn hlt
    cases hleaf : node.leaf with
    | true =>
      obtain ⟨l, ks, cs⟩ := node
      simp only [BTreeNode.leaf_mk] at hleaf
      subst hleaf
      obtain ⟨L, R, _, hrun, _, _⟩ := insertNonFullAux_leaf Access.raw k f ks cs
      exact ⟨_, hrun⟩
    | false =>
      have hfan := hn node (self_mem_allNodes node) hleaf
      obtain ⟨L, R, cl, c, cr, hks, hcs, hcl, _, _, _, hno, hyes⟩ := descend_raw node k hfan
        (fun c hc hl hfull => by
          have := (hn.child hc) c (self_mem_allNodes c) hl
          rw [this, hfull]; decide)
      have hcmem : c ∈ node.children := by rw [hcs]; simp
      have hcn : ChildrenMatch c := hn.child hcmem
      have hch : height c < f := by
        have : height c < height node := by
          obtain ⟨l, ks, cs⟩ := node
          exact height_lt_of_mem hcmem
        omega
      rw [insertNonFullAux_nonleaf Access.raw f node k hleaf]
      by_cases hfull : c.keys.length = MAX_KEYS
      · obtain ⟨mid, _, _, hdesc⟩ := hyes hfull
        have hchild : ChildrenMatch (if k > mid then splitRight c else splitLeft c) ∧
            height (if k > mid then splitRight c else splitLeft c) < f := by
          by_cases hk : k > mid
          · simp only [hk, if_true]
            exact ⟨hcn.of_splitRight hfull, lt_of_le_of_lt (height_splitRight_le c) hch⟩
          · simp only [hk, if_false]
            exact ⟨hcn.of_splitLeft hfull, lt_of_le_of_lt (height_splitLeft_le c) hch⟩
        obtain ⟨r, hr⟩ := ih _ hchild.1 hchild.2
        rw [hdesc]
        simp only [hr]
        exact ⟨_, rfl⟩
      · obtain ⟨r, hr⟩ := ih c hcn hch
        rw [hno hfull]
        simp only [hr]
        exact ⟨_, rfl⟩

theorem scanLoop_returns (k : Int) (keys : List Int) : ∀ (j : Nat), j ≤ keys.length →
    ∃ i, scanLoop k keys j = .ok i ∧ i ≤ j := by
  intro j
  induction j with
  | zero => intro _; exact ⟨0, rfl, Nat.le_refl 0⟩
  | succ j ih =>
    intro hj
    have hget : vecGet keys j = .ok keys[j] := by
      simp [vecGet, List.getElem?_eq_getElem (show j < keys.length by omega)]
    by_cases hk : k < keys[j]
    · obtain ⟨i, hi, hle⟩ := ih (by omega)
      refine ⟨i, ?_, by omega⟩
      simp only [scanLoop, hget, hk, if_true, bind, Except.bind]
      exact hi
    · refine ⟨j + 1, ?_, Nat.le_refl _⟩
      simp only [scanLoop, hget, hk, if_false, bind, Except.bind, pure, Except.pure]

theorem shiftLoop_returns (k : Int) : ∀ (j : Nat) (keys : List Int), j < keys.length →
    ∃ keys1 i, shiftLoop k j keys = .ok (keys1, i) ∧ i ≤ j ∧ keys1.length = keys.length := by
  intro j
  induction j with
  | zero => intro keys _; exact ⟨keys, 0, rfl, Nat.le_refl 0, rfl⟩
  | succ j ih =>
    intro keys hj
    have hget : vecGet keys j = .ok keys[j] := by
      simp [vecGet, List.getElem?_eq_getElem (show j < keys.length by omega)]
    by_cases hk : k < keys[j]
    · have hset : vecSet keys (j + 1) keys[j] = .ok (keys.set (j + 1) keys[j]) := by
        simp [vecSet, hj]
      obtain ⟨keys1, i, hi, hle, hlen⟩ := ih (keys.set (j + 1) keys[j]) (by simp; omega)
      refine ⟨keys1, i, ?_, by omega, by simpa using hlen⟩
      simp only [shiftLoop, hget, hk, if_true, hset, bind, Except.bind]
      exact hi
    · refine ⟨keys, j + 1, ?_, Nat.le_refl _, rfl⟩
      simp only [shiftLoop, hget, hk, if_false, bind, Except.bind, pure, Except.pure]

/-- On a tree whose non-leaf nodes have one child more than keys, `insert` returns. -/
theorem insert_returns (tr : BTree) (k : Int) (hfan : ChildrenMatch tr.root) :
    ∃ tr1, BTree.insert Access.raw tr k = .ok tr1 := by
  by_cases hfull : tr.root.keys.length = MAX_KEYS
  · obtain ⟨mid, _, hsplit⟩ := splitChild_raw (BTreeNode.mk false [] [tr.root]) tr.root 0
      (by simp) hfull (by simp) (fun hl => by
        have := hfan tr.root (self_mem_allNodes _) hl
        rw [this, hfull]; decide)
    simp only [BTreeNode.leaf_mk, BTreeNode.keys_mk, BTreeNode.children_mk, List.take_zero,
      List.drop_zero, List.nil_append, List.drop_succ_cons] at hsplit
    have hcm : ChildrenMatch (BTreeNode.mk false [mid] [splitLeft tr.root, splitRight tr.root]) := by
      intro m hm hl
      rcases mem_allNodes.1 hm with h1 | ⟨c, hc, hmc⟩
      · subst h1; simp
      · simp only [List.mem_cons, List.mem_singleton, List.not_mem_nil, or_false] at hc
        rcases hc with h1 | h1
        · subst h1; exact hfan.of_splitLeft hfull m hmc hl
        · subst h1; exact hfan.of_splitRight hfull m hmc hl
    obtain ⟨r, hr⟩ := insertNonFullAux_returns k _ _ hcm (Nat.lt_succ_self _)
    refine ⟨{ tr with root := r }, ?_⟩
    simp only [BTree.insert, hfull, if_true, hsplit, BTree.insertNonFull, hr, bind, Except.bind,
      pure, Except.pure]
  · obtain ⟨r, hr⟩ := insertNonFullAux_returns k _ _ hfan (Nat.lt_succ_self (height tr.root))
    refine ⟨{ tr with root := r }, ?_⟩
    simp only [BTree.insert, hfull, if_false, BTree.insertNonFull, hr, bind, Except.bind, pure,
      Except.pure]

/-! ## The properties, continued -/

/-- C11. Leaf insertion: on a leaf whose keys are sorted, `insertNonFull(node, k)` runs without
fault and leaves the node a leaf with the same children and one more key; the new keys are the
old keys that are not greater than `k` (unmoved), then `k`, then the old keys greater than `k`
(each moved one position to the right), and they are sorted. -/
theorem leaf_insertion (a : Access) (node : BTreeNode) (k : Int) (hleaf : node.leaf = true)
    (hsorted : node.keys.Pairwise (fun x y => x ≤ y)) :
    ∃ L R, node.keys = L ++ R ∧
      BTree.insertNonFull a node k = .ok (BTreeNode.mk true (L ++ k :: R) node.children) ∧
      L = node.keys.filter (fun x => x ≤ k) ∧ R = node.keys.filter (fun x => k < x) ∧
      (∀ x, L.getLast? = some x → x ≤ k) ∧ (∀ x ∈ R, k < x) ∧
      (L ++ k :: R).length = node.keys.length + 1 ∧
      (L ++ k :: R).Pairwise (fun x y => x ≤ y) := by
  obtain ⟨l, ks, cs⟩ := node
  simp only [BTreeNode.leaf_mk, BTreeNode.keys_mk, BTreeNode.children_mk] at hleaf hsorted ⊢
  subst hleaf
  obtain ⟨L, R, hks, hrun, hR, hL⟩ := insertNonFullAux_leaf a k (height (BTreeNode.mk true ks cs)) ks cs
  subst hks
  obtain ⟨hpL, hpR, hcross⟩ := List.pairwise_append.1 hsorted
  have hLall : ∀ x ∈ L, x ≤ k := by
    intro y hy
    rcases List.eq_nil_or_concat L with h | ⟨L1, x, h⟩
    · subst h; simp at hy
    · subst h
      exact getLast_le_of_pairwise hpL (by simp) (hL x (by simp)) y hy
  refine ⟨L, R, rfl, hrun, ?_, ?_, hL, hR, by simp; omega, ?_⟩
  · rw [List.filter_append]
    have h1 : L.filter (fun x => decide (x ≤ k)) = L :=
      List.filter_eq_self.2 (fun x hx => by simpa using hLall x hx)
    have h2 : R.filter (fun x => decide (x ≤ k)) = [] :=
      List.filter_eq_nil_iff.2 (fun x hx => by have := hR x hx; simp; omega)
    rw [h1, h2]; simp
  · rw [List.filter_append]
    have h1 : L.filter (fun x => decide (k < x)) = [] :=
      List.filter_eq_nil_iff.2 (fun x hx => by have := hLall x hx; simp; omega)
    have h2 : R.filter (fun x => decide (k < x)) = R :=
      List.filter_eq_self.2 (fun x hx => by simpa using hR x hx)
    rw [h1, h2]; simp
  · refine List.pairwise_append.2 ⟨hpL, List.pairwise_cons.2 ⟨fun x hx => le_of_lt (hR x hx), hpR⟩, ?_⟩
    intro x hx y hy
    rcases List.mem_cons.1 hy with h | h
    · subst h; exact hLall x hx
    · exact hcross x hx y h

/-- Witness of C11: the key `3` goes into the leaf `[1, 3, 3, 7]` after the second `3`. -/
theorem leaf_insertion_witness :
    (BTreeNode.mk true [1, 3, 3, 7] []).leaf = true ∧
    (BTreeNode.mk true [1, 3, 3, 7] []).keys.Pairwise (fun x y => x ≤ y) ∧
    ∃ L R, (BTreeNode.mk true [1, 3, 3, 7] []).keys = L ++ R ∧
      BTree.insertNonFull Access.raw (BTreeNode.mk true [1, 3, 3, 7] []) 3 =
        .ok (BTreeNode.mk true (L ++ 3 :: R) (BTreeNode.mk true [1, 3, 3, 7] []).children) ∧
      L = (BTreeNode.mk true [1, 3, 3, 7] []).keys.filter (fun x => x ≤ 3) ∧
      R = (BTreeNode.mk true [1, 3, 3, 7] []).keys.filter (fun x => 3 < x) ∧
      (∀ x, L.getLast? = some x → x ≤ 3) ∧ (∀ x ∈ R, 3 < x) ∧
      (L ++ 3 :: R).length = (BTreeNode.mk true [1, 3, 3, 7] []).keys.length + 1 ∧
      (L ++ 3 :: R).Pairwise (fun x y => x ≤ y) :=
  ⟨rfl, by decide,
    leaf_insertion Access.raw (BTreeNode.mk true [1, 3, 3, 7] []) 3 rfl (by decide)⟩

/-- C12. Split-before-descend precondition: on a tree reachable from a freshly constructed one,
`insert` runs without fault, and every call of `insertNonFull` that it makes (the call on the
root and each recursive call on a child) is entered on a node with fewer than `MAX_KEYS = 4`
keys. -/
theorem insertNonFull_calls_have_room (tr : BTree) (k : Int) (hr : Reachable tr) :
    ∃ tr1 evs, BTree.insert Access.raw tr k = .ok tr1 ∧
      BTree.insertEvents Access.raw tr k = .ok evs ∧
      (∃ n, Event.call n ∈ evs) ∧
      ∀ n, Event.call n ∈ evs → n.keys.length < MAX_KEYS := by
  obtain ⟨h, hs, hmin, hsort⟩ := reachable_wellFormed hr
  obtain ⟨tr1, hrun, _⟩ := insert_spec tr k h hs hmin hsort
  obtain ⟨evs, hevs, hex, hcalls, _⟩ := insertEvents_spec tr k h hs
  exact ⟨tr1, evs, hrun, hevs, hex, hcalls⟩

/-- Witness of C12: the key `5` inserted into the tree whose root is the full leaf
`[1, 2, 3, 4]`. -/
theorem insertNonFull_calls_have_room_witness :
    Reachable { root := BTreeNode.mk true [1, 2, 3, 4] [], t := 3 } ∧
    ∃ tr1 evs,
      BTree.insert Access.raw { root := BTreeNode.mk true [1, 2, 3, 4] [], t := 3 } 5 = .ok tr1 ∧
      BTree.insertEvents Access.raw { root := BTreeNode.mk true [1, 2, 3, 4] [], t := 3 } 5 =
        .ok evs ∧
      (∃ n, Event.call n ∈ evs) ∧
      ∀ n, Event.call n ∈ evs → n.keys.length < MAX_KEYS :=
  ⟨⟨3, [1, 2, 3, 4], rfl⟩,
    insertNonFull_calls_have_room { root := BTreeNode.mk true [1, 2, 3, 4] [], t := 3 } 5
      ⟨3, [1, 2, 3, 4], rfl⟩⟩

/-- C13. Child selection: on a non-leaf node with sorted keys (one child more than keys), the
index `i` found by the scan is the number of keys that are less than or equal to `k`; when
`children[i]` holds `MAX_KEYS = 4` keys it is split first and the recursive call is then made on
`children[i + 1]` if `k` is strictly greater than the separator now at `keys[i]` and on
`children[i]` otherwise; when it holds fewer, the call is made on `children[i]` of the unchanged
node. -/
theorem child_selection (node : BTreeNode) (k : Int) (fuel : Nat)
    (hleaf : node.leaf = false) (hsorted : node.keys.Pairwise (fun x y => x ≤ y))
    (hfan : node.children.length = node.keys.length + 1)
    (hch : ∀ c ∈ node.children, c.leaf = false → c.children.length = c.keys.length + 1) :
    ∃ i c d, i = node.keys.countP (fun x => x ≤ k) ∧
      scanLoop k node.keys node.keys.length = .ok i ∧
      node.children[i]? = some c ∧
      BTree.descend Access.raw node k = .ok d ∧ d.scanned = i ∧
      (c.keys.length = MAX_KEYS → ∃ sep, d.didSplit = true ∧
        BTree.splitChild Access.raw node i = .ok d.node1 ∧
        d.node1.keys[i]? = some sep ∧
        (k > sep → d.index = i + 1) ∧ (¬ k > sep → d.index = i) ∧
        d.node1.children[d.index]? = some d.child) ∧
      (c.keys.length ≠ MAX_KEYS →
        d.didSplit = false ∧ d.node1 = node ∧ d.index = i ∧ d.child = c) ∧
      BTree.insertNonFullAux Access.raw (fuel + 1) node k =
        (match BTree.insertNonFullAux Access.raw fuel d.child k with
         | .error e => .error e
         | .ok c2 =>
           .ok (BTreeNode.mk d.node1.leaf d.node1.keys (d.node1.children.set d.index c2))) := by
  obtain ⟨L, R, cl, c, cr, hks, hcs, hcl, hscan, hR, hL, hno, hyes⟩ := descend_raw node k hfan
    (fun c hc hl hfull => by rw [hch c hc hl, hfull]; decide)
  have hcount : L.length = node.keys.countP (fun x => x ≤ k) := by
    rw [hks] at hsorted ⊢
    have hLall : ∀ x ∈ L, x ≤ k := by
      intro y hy
      rcases List.eq_nil_or_concat L with h | ⟨L1, x, h⟩
      · subst h; simp at hy
      · subst h
        exact getLast_le_of_pairwise (List.pairwise_append.1 hsorted).1 (by simp)
          (hL x (by simp)) y hy
    rw [List.countP_append]
    have h1 : L.countP (fun x => decide (x ≤ k)) = L.length :=
      List.countP_eq_length.2 (fun x hx => by simpa using hLall x hx)
    have h2 : R.countP (fun x => decide (x ≤ k)) = 0 :=
      List.countP_eq_zero.2 (fun x hx => by have := hR x hx; simp; omega)
    omega
  have hget : node.children[L.length]? = some c := by
    rw [hcs, ← hcl, List.getElem?_append_right (Nat.le_refl _)]; simp
  have hlink := insertNonFullAux_nonleaf Access.raw fuel node k hleaf
  by_cases hfull : c.keys.length = MAX_KEYS
  · obtain ⟨mid, _, hsplit, hdesc⟩ := hyes hfull
    rw [hdesc] at hlink
    refine ⟨L.length, c, _, hcount, hscan, hget, hdesc, rfl, ?_, fun h => absurd hfull h, hlink⟩
    intro _
    refine ⟨mid, rfl, hsplit, ?_, ?_, ?_, ?_⟩
    · simp only [BTreeNode.keys_mk]
      rw [List.getElem?_append_right (Nat.le_refl _)]; simp
    · intro hk; simp only [hk, if_true]
    · intro hk; simp only [hk, if_false]
    · by_cases hk : k > mid
      · simp only [hk, if_true, BTreeNode.children_mk]
        rw [← hcl, List.getElem?_append_right (by omega)]; simp
      · simp only [hk, if_false, BTreeNode.children_mk]
        rw [← hcl, List.getElem?_append_right (Nat.le_refl _)]; simp
  · have hdesc := hno hfull
    rw [hdesc] at hlink
    exact ⟨L.length, c, _, hcount, hscan, hget, hdesc, rfl, fun h => absurd h hfull,
      fun _ => ⟨rfl, rfl, rfl, rfl⟩, hlink⟩

/-- Witness of C13: the key `15` on a node with the keys `[10, 20]` whose middle child
`[11, 12, 13, 14]` is full. -/
theorem child_selection_witness :
    (BTreeNode.mk false [10, 20] [BTreeNode.mk true [1, 2] [],
        BTreeNode.mk true [11, 12, 13, 14] [], BTreeNode.mk true [21] []]).leaf = false ∧
    ∃ i c d, i = (BTreeNode.mk false [10, 20] [BTreeNode.mk true [1, 2] [],
        BTreeNode.mk true [11, 12, 13, 14] [], BTreeNode.mk true [21] []]).keys.countP
          (fun x => x ≤ 15) ∧
      scanLoop 15 (BTreeNode.mk false [10, 20] [BTreeNode.mk true [1, 2] [],
        BTreeNode.mk true [11, 12, 13, 14] [], BTreeNode.mk true [21] []]).keys
        (BTreeNode.mk false [10, 20] [BTreeNode.mk true [1, 2] [],
        BTreeNode.mk true [11, 12, 13, 14] [], BTreeNode.mk true [21] []]).keys.length = .ok i ∧
      (BTreeNode.mk false [10, 20] [BTreeNode.mk true [1, 2] [],
        BTreeNode.mk true [11, 12, 13, 14] [], BTreeNode.mk true [21] []]).children[i]? = some c ∧
      BTree.descend Access.raw (BTreeNode.mk false [10, 20] [BTreeNode.mk true [1, 2] [],
        BTreeNode.mk true [11, 12, 13, 14] [], BTreeNode.mk true [21] []]) 15 = .ok d ∧
      d.scanned = i ∧
      (c.keys.length = MAX_KEYS → ∃ sep, d.didSplit = true ∧
        BTree.splitChild Access.raw (BTreeNode.mk false [10, 20] [BTreeNode.mk true [1, 2] [],
          BTreeNode.mk true [11, 12, 13, 14] [], BTreeNode.mk true [21] []]) i = .ok d.node1 ∧
        d.node1.keys[i]? = some sep ∧
        (15 > sep → d.index = i + 1) ∧ (¬ 15 > sep → d.index = i) ∧
        d.node1.children[d.index]? = some d.child) ∧
      (c.keys.length ≠ MAX_KEYS →
        d.didSplit = false ∧ d.node1 = BTreeNode.mk false [10, 20] [BTreeNode.mk true [1, 2] [],
          BTreeNode.mk true [11, 12, 13, 14] [], BTreeNode.mk true [21] []] ∧
        d.index = i ∧ d.child = c) ∧
      BTree.insertNonFullAux Access.raw (1 + 1) (BTreeNode.mk false [10, 20]
        [BTreeNode.mk true [1, 2] [], BTreeNode.mk true [11, 12, 13, 14] [],
          BTreeNode.mk true [21] []]) 15 =
        (match BTree.insertNonFullAux Access.raw 1 d.child 15 with
         | .error e => .error e
         | .ok c2 =>
           .ok (BTreeNode.mk d.node1.leaf d.node1.keys (d.node1.children.set d.index c2))) :=
  ⟨rfl, child_selection (BTreeNode.mk false [10, 20] [BTreeNode.mk true [1, 2] [],
      BTreeNode.mk true [11, 12, 13, 14] [], BTreeNode.mk true [21] []]) 15 1 rfl
    (by decide) rfl (by
      intro c hc hl
      simp only [BTreeNode.children_mk, List.mem_cons, List.mem_singleton, List.not_mem_nil,
        or_false] at hc
      rcases hc with h | h | h <;> subst h <;> simp at hl)⟩

/-- C14. Leaf flag consistency: the root of a freshly constructed tree is a leaf without keys
and without children, and whatever finite sequence of integers is inserted into it, in the tree
that results every node has its leaf flag set if and only if it has no children. -/
theorem leaf_flag_consistency (degree : Int) (ks : List Int) :
    (BTree.new degree).root = BTreeNode.mk true [] [] ∧
    ∃ tr, BTree.insertAll Access.raw (BTree.new degree) ks = .ok tr ∧
      ∀ n ∈ allNodes tr.root, (n.leaf = true ↔ n.children = []) := by
  refine ⟨rfl, ?_⟩
  obtain ⟨tr, hrun, _, ⟨h, hs, _, _⟩, _⟩ :=
    insertAll_wellFormed ks (BTree.new degree) (wellFormed_new degree)
  refine ⟨tr, hrun, ?_⟩
  intro n hn
  obtain ⟨h1, hs1⟩ := Shaped.of_mem h tr.root n hs hn
  exact hs1.leaf_iff

/-- C15. Logarithmic depth: after a sequence of `N` integers is inserted into a freshly
constructed tree, the tree stores `N` keys and its depth `d` (edges from the root to a leaf)
satisfies `2 ^ d ≤ N + 1`. -/
theorem depth_logarithmic (degree : Int) (ks : List Int) :
    ∃ tr, BTree.insertAll Access.raw (BTree.new degree) ks = .ok tr ∧
      keyCount tr.root = ks.length ∧ 2 ^ height tr.root ≤ ks.length + 1 := by
  obtain ⟨tr, hrun, _, ⟨h, hs, hmin, _⟩, hperm⟩ :=
    insertAll_wellFormed ks (BTree.new degree) (wellFormed_new degree)
  have hcount : keyCount tr.root = ks.length := by
    rw [← inorder_length, hperm.length_eq]
    simp [BTree.new, inorder, inorderAux]
  refine ⟨tr, hrun, hcount, ?_⟩
  rw [Shaped.height_eq h _ hs, ← hcount]
  cases h with
  | zero => simp
  | succ h =>
    have h1 := Shaped.pow_le_keyCount (h + 1) _ hs (hmin (by omega))
    have h2 : 2 ^ (h + 1) ≤ 2 ^ (h + 1 + 1) := Nat.pow_le_pow_right (by decide) (by omega)
    omega

/-- C16. Termination: on every tree whose non-leaf nodes have one child more than keys, and for
every key, `insert` returns; `insertNonFull` returns on the root with any fuel above the height of
the root, the recursion going one level down per call; and each of the two scanning loops,
started at a counter `j` within the vector, returns after at most `j` steps with a counter not
above `j`. -/
theorem insert_terminates (tr : BTree) (k : Int) (hfan : ChildrenMatch tr.root) :
    (∃ tr1, BTree.insert Access.raw tr k = .ok tr1) ∧
    (∀ fuel, height tr.root < fuel →
      ∃ r, BTree.insertNonFullAux Access.raw fuel tr.root k = .ok r) ∧
    (∀ (keys : List Int) (j : Nat), j ≤ keys.length →
      ∃ i, scanLoop k keys j = .ok i ∧ i ≤ j) ∧
    (∀ (keys : List Int) (j : Nat), j < keys.length →
      ∃ keys1 i, shiftLoop k j keys = .ok (keys1, i) ∧ i ≤ j ∧ keys1.length = keys.length) :=
  ⟨insert_returns tr k hfan,
    fun fuel hlt => insertNonFullAux_returns k fuel tr.root hfan hlt,
    fun keys j hj => scanLoop_returns k keys j hj,
    fun keys j hj => shiftLoop_returns k j keys hj⟩

/-- Witness of C16: a tree that is not balanced, with a full leaf on the path of the key `7`. -/
theorem insert_terminates_witness :
    ChildrenMatch (BTreeNode.mk false [5] [BTreeNode.mk true [1] [],
        BTreeNode.mk false [10] [BTreeNode.mk true [6, 7, 8, 9] [], BTreeNode.mk true [11] []]]) ∧
    ((∃ tr1, BTree.insert Access.raw
        { root := BTreeNode.mk false [5] [BTreeNode.mk true [1] [],
            BTreeNode.mk false [10] [BTreeNode.mk true [6, 7, 8, 9] [],
              BTreeNode.mk true [11] []]],
          t := 3 } 7 = .ok tr1) ∧
    (∀ fuel, height (BTreeNode.mk false [5] [BTreeNode.mk true [1] [],
        BTreeNode.mk false [10] [BTreeNode.mk true [6, 7, 8, 9] [],
          BTreeNode.mk true [11] []]]) < fuel →
      ∃ r, BTree.insertNonFullAux Access.raw fuel (BTreeNode.mk false [5]
        [BTreeNode.mk true [1] [], BTreeNode.mk false [10] [BTreeNode.mk true [6, 7, 8, 9] [],
          BTreeNode.mk true [11] []]]) 7 = .ok r) ∧
    (∀ (keys : List Int) (j : Nat), j ≤ keys.length →
      ∃ i, scanLoop 7 keys j = .ok i ∧ i ≤ j) ∧
    (∀ (keys : List Int) (j : Nat), j < keys.length →
      ∃ keys1 i, shiftLoop 7 j keys = .ok (keys1, i) ∧ i ≤ j ∧ keys1.length = keys.length)) :=
  have hcm : ChildrenMatch (BTreeNode.mk false [5] [BTreeNode.mk true [1] [],
      BTreeNode.mk false [10] [BTreeNode.mk true [6, 7, 8, 9] [], BTreeNode.mk true [11] []]]) := by
    intro n hn hl
    simp only [allNodes, allNodesList, List.append_nil, List.mem_cons, List.singleton_append,
      List.cons_append, List.nil_append, List.not_mem_nil, or_false] at hn
    rcases hn with h | h | h | h | h <;> subst h <;> simp at hl ⊢
  ⟨hcm, insert_terminates
    { root := BTreeNode.mk false [5] [BTreeNode.mk true [1] [],
        BTreeNode.mk false [10] [BTreeNode.mk true [6, 7, 8, 9] [],
          BTreeNode.mk true [11] []]],
      t := 3 } 7 hcm⟩

/-- C17. Sorted contents: whatever finite sequence of integers is inserted into a freshly
constructed tree, the in-order traversal of the tree that results is non-decreasing and a
permutation of the sequence, that is, it is the sequence sorted, with every duplicate kept. -/
theorem inorder_is_sorted_input (degree : Int) (ks : List Int) :
    ∃ tr, BTree.insertAll Access.raw (BTree.new degree) ks = .ok tr ∧
      (inorder tr.root).Pairwise (fun x y => x ≤ y) ∧
      (inorder tr.root).Perm ks ∧
      inorder tr.root = ks.insertionSort (fun x y => x ≤ y) := by
  obtain ⟨tr, hrun, _, ⟨h, _, _, hsort⟩, hperm⟩ :=
    insertAll_wellFormed ks (BTree.new degree) (wellFormed_new degree)
  have hperm1 : (inorder tr.root).Perm ks := by
    simpa [BTree.new, inorder, inorderAux] using hperm
  refine ⟨tr, hrun, hsort, hperm1, ?_⟩
  exact List.eq_of_perm_of_sorted
    (hperm1.trans (List.perm_insertionSort (fun x y => x ≤ y) ks).symm) hsort
    (List.sorted_insertionSort (fun x y => x ≤ y) ks)

/-- C18. Balance: whatever finite sequence of integers is inserted into a freshly constructed
tree, all leaves of the tree that results are at the same depth below the root, which is the
height of the tree. -/
theorem leaves_same_depth (degree : Int) (ks : List Int) :
    ∃ tr, BTree.insertAll Access.raw (BTree.new degree) ks = .ok tr ∧
      leafDepths tr.root ≠ [] ∧
      (∀ d ∈ leafDepths tr.root, d = height tr.root) ∧
      ∀ d1 ∈ leafDepths tr.root, ∀ d2 ∈ leafDepths tr.root, d1 = d2 := by
  obtain ⟨tr, hrun, _, ⟨h, hs, _, _⟩, _⟩ :=
    insertAll_wellFormed ks (BTree.new degree) (wellFormed_new degree)
  have hall := leafDepths_shaped h tr.root hs
  refine ⟨tr, hrun, leafDepths_ne_nil h tr.root hs, ?_, ?_⟩
  · intro d hd
    rw [Shaped.height_eq h _ hs]
    exact hall d hd
  · intro d1 h1 d2 h2
    rw [hall d1 h1, hall d2 h2]

/-- C19. Minimum occupancy: when a key `k` is inserted after any finite sequence `ks` into a
freshly constructed tree (so after each insert of any non-empty sequence), every node of the tree
that results holds at least 1 key and every non-leaf node has at least 2 children; and every call
of `splitChild` made by that insert acts on a child of exactly 4 keys, leaves it with exactly
2 keys and gives the new sibling exactly 1 key. -/
theorem minimum_occupancy (degree : Int) (ks : List Int) (k : Int) :
    ∃ tr0 tr evs, BTree.insertAll Access.raw (BTree.new degree) ks = .ok tr0 ∧
      BTree.insert Access.raw tr0 k = .ok tr ∧
      BTree.insertAll Access.raw (BTree.new degree) (ks ++ [k]) = .ok tr ∧
      (∀ n ∈ allNodes tr.root, 1 ≤ n.keys.length ∧ (n.leaf = false → 2 ≤ n.children.length)) ∧
      BTree.insertEvents Access.raw tr0 k = .ok evs ∧
      ∀ p i, Event.split p i ∈ evs → SplitsFourIntoTwoAndOne p i := by
  obtain ⟨tr0, hrun0, _, ⟨h, hs, hmin, hsort⟩, _⟩ :=
    insertAll_wellFormed ks (BTree.new degree) (wellFormed_new degree)
  obtain ⟨tr, hrun, _, hs1, hk1, _⟩ := insert_spec tr0 k h hs hmin hsort
  obtain ⟨evs, hevs, _, _, hsplits⟩ := insertEvents_spec tr0 k h hs
  refine ⟨tr0, tr, evs, hrun0, hrun, ?_, Shaped.occupancy _ _ hs1 hk1, hevs, hsplits⟩
  rw [insertAll_append, hrun0]
  exact hrun

/-! ## The splits of a run -/

/-- A split of a full child of a shaped subtree, found at an index within the keys of the parent,
has the shape `SplitsAtMiddle`. -/
theorem splitsAtMiddle_of_shaped (parent y : BTreeNode) (i h : Nat)
    (hy : parent.children[i]? = some y) (hfull : y.keys.length = MAX_KEYS)
    (hi : i ≤ parent.keys.length) (hs : Shaped h y) : SplitsAtMiddle parent i := by
  have hch : y.leaf = false → y.children.length = y.keys.length + 1 := hs.node_fanout.2
  obtain ⟨a, b, m, d, p1, hk, hsplit, hm, hy1, hz, hlen⟩ :=
    splitChild_full_shape parent y i hy hfull hi hch
  refine ⟨y, a, b, m, d, p1, hy, hk, hsplit, hm, hy1, hz, ?_⟩
  intro hl
  refine ⟨?_, hlen hl⟩
  rw [hch hl, hfull]
  rfl

/-- Every call of `splitChild` made by `insertNonFull` on a shaped subtree whose root has room
has the shape `SplitsAtMiddle`. -/
theorem insertNonFullEvents_splits (k : Int) : ∀ (h fuel : Nat) (node : BTreeNode),
    Shaped h node → node.keys.length < MAX_KEYS → h < fuel →
    ∃ evs, BTree.insertNonFullEvents Access.raw fuel node k = .ok evs ∧
      ∀ p i, Event.split p i ∈ evs → SplitsAtMiddle p i := by
  intro h
  induction h with
  | zero =>
    intro fuel node hs hlt hfuel
    obtain ⟨evs, hevs, _, _, _⟩ := insertNonFullEvents_spec k 0 fuel node hs hlt hfuel
    obtain ⟨f, rfl⟩ : ∃ f, fuel = f + 1 := ⟨fuel - 1, by omega⟩
    have hleaf : node.leaf = true := hs.1
    refine ⟨evs, hevs, ?_⟩
    intro p i hp
    simp only [BTree.insertNonFullEvents, hleaf, if_true, bind, Except.bind, pure,
      Except.pure] at hevs
    cases hrun : BTree.insertNonFullAux Access.raw (f + 1) node k with
    | error e => rw [hrun] at hevs; cases hevs
    | ok r =>
      rw [hrun] at hevs
      simp only [Except.ok.injEq] at hevs
      rw [← hevs] at hp
      simp at hp
  | succ h ih =>
    intro fuel node hs hlt hfuel
    obtain ⟨f, rfl⟩ : ∃ f, fuel = f + 1 := ⟨fuel - 1, by omega⟩
    have hf : h < f := by omega
    have hleaf : node.leaf = false := hs.1
    obtain ⟨L, R, cl, c, cr, hks, hcs, hcl, _, _, _, hno, hyes⟩ := descend_raw node k hs.2.2.1
      (fun c hc hl hfull => (hs.2.2.2 c hc).2.three_children hl hfull)
    have hc : 1 ≤ c.keys.length ∧ Shaped h c := hs.2.2.2 c (by rw [hcs]; simp)
    by_cases hfull : c.keys.length = MAX_KEYS
    · obtain ⟨mid, _, _, hdesc⟩ := hyes hfull
      obtain ⟨a, b, m, d, _, hsy, hsz, _, hyl, hzr, _⟩ := split_shaped h c hc.2 hfull
      have hchild : Shaped h (if k > mid then splitRight c else splitLeft c) ∧
          (if k > mid then splitRight c else splitLeft c).keys.length < MAX_KEYS := by
        by_cases hk : k > mid
        · simp only [hk, if_true]; exact ⟨hsz, by simp [hzr, MAX_KEYS]⟩
        · simp only [hk, if_false]; exact ⟨hsy, by simp [hyl, MAX_KEYS]⟩
      obtain ⟨rest, hrest, hsplits⟩ := ih f _ hchild.1 hchild.2 hf
      refine ⟨Event.call node :: ([Event.split node L.length] ++ rest), ?_, ?_⟩
      · simp only [BTree.insertNonFullEvents, hleaf, Bool.false_eq_true, if_false, hdesc, hrest,
          bind, Except.bind, pure, Except.pure, if_true]
      · intro p i hp
        simp only [List.mem_cons, List.mem_append, List.mem_singleton, Event.split.injEq,
          List.not_mem_nil, or_false, false_or, reduceCtorEq] at hp
        rcases hp with ⟨h1, h2⟩ | h1
        · subst h1; subst h2
          refine splitsAtMiddle_of_shaped p c L.length h ?_ hfull (by rw [hks]; simp) hc.2
          rw [hcs, ← hcl, List.getElem?_append_right (Nat.le_refl _)]; simp
        · exact hsplits p i h1
    · have hdesc := hno hfull
      have hclt : c.keys.length < MAX_KEYS := lt_of_le_of_ne hc.2.keys_le hfull
      obtain ⟨rest, hrest, hsplits⟩ := ih f c hc.2 hclt hf
      refine ⟨Event.call node :: ([] ++ rest), ?_, ?_⟩
      · simp only [BTree.insertNonFullEvents, hleaf, Bool.false_eq_true, if_false, hdesc, hrest,
          bind, Except.bind, pure, Except.pure]
      · intro p i hp
        simp only [List.mem_cons, List.nil_append, false_or, reduceCtorEq] at hp
        exact hsplits p i hp

/-- Every call of `splitChild` made by `insert` on a tree with a shaped root has the shape
`SplitsAtMiddle`, and the split of a full root is among these calls. -/
theorem insertEvents_splits (tr : BTree) (k : Int) (h : Nat) (hs : Shaped h tr.root) :
    ∃ evs, BTree.insertEvents Access.raw tr k = .ok evs ∧
      (tr.root.keys.length = MAX_KEYS →
        Event.split (BTreeNode.mk false [] [tr.root]) 0 ∈ evs) ∧
      ∀ p i, Event.split p i ∈ evs → SplitsAtMiddle p i := by
  by_cases hfull : tr.root.keys.length = MAX_KEYS
  · obtain ⟨mid, _, hsplit, hs1, _⟩ := rootSplit_spec h tr.root hs hfull
    have hh := Shaped.height_eq (h + 1) _ hs1
    obtain ⟨rest, hrest, hsplits⟩ :=
      insertNonFullEvents_splits k (h + 1) (h + 2) _ hs1 (by simp [MAX_KEYS]) (by omega)
    refine ⟨Event.split (BTreeNode.mk false [] [tr.root]) 0 :: rest, ?_, fun _ => by simp, ?_⟩
    · simp only [BTree.insertEvents, hfull, if_true, hsplit, hh, hrest, bind, Except.bind, pure,
        Except.pure]
    · intro p i hp
      simp only [List.mem_cons, Event.split.injEq] at hp
      rcases hp with ⟨h1, h2⟩ | h1
      · subst h1; subst h2
        exact splitsAtMiddle_of_shaped (BTreeNode.mk false [] [tr.root]) tr.root 0 h
          (by simp) hfull (by simp) hs
      · exact hsplits p i h1
  · have hlt : tr.root.keys.length < MAX_KEYS := lt_of_le_of_ne hs.keys_le hfull
    have hh := Shaped.height_eq h _ hs
    obtain ⟨evs, hevs, hsplits⟩ := insertNonFullEvents_splits k h (h + 1) _ hs hlt (by omega)
    refine ⟨evs, ?_, fun hf => absurd hf hfull, hsplits⟩
    simp only [BTree.insertEvents, hfull, if_false, hh, hevs]

/-- A successful insert into a reachable tree gives a reachable tree. -/
theorem reachable_insert {tr tr1 : BTree} (hr : Reachable tr) (k : Int)
    (h : BTree.insert Access.raw tr k = .ok tr1) : Reachable tr1 := by
  obtain ⟨degree, ks, hrun⟩ := hr
  exact ⟨degree, ks ++ [k], by rw [insertAll_append, hrun]; exact h⟩

/-- The tree `fullInnerRootTree` is what the inserts of `0, 1, ..., 13` build. -/
theorem reachable_fullInnerRootTree : Reachable fullInnerRootTree := by
  have h0 : Reachable { root := BTreeNode.mk true [] [], t := 3 } := ⟨3, [], rfl⟩
  have h1 : Reachable
      { root := BTreeNode.mk true [0] [], t := 3 } :=
    reachable_insert h0 0 rfl
  have h2 : Reachable
      { root := BTreeNode.mk true [0, 1] [], t := 3 } :=
    reachable_insert h1 1 rfl
  have h3 : Reachable
      { root := BTreeNode.mk true [0, 1, 2] [], t := 3 } :=
    reachable_insert h2 2 rfl
  have h4 : Reachable
      { root := BTreeNode.mk true [0, 1, 2, 3] [], t := 3 } :=
    reachable_insert h3 3 rfl
  have h5 : Reachable
      { root := BTreeNode.mk false [2] [BTreeNode.mk true [0, 1] [], BTreeNode.mk true [3, 4]
        []], t := 3 } :=
    reachable_insert h4 4 rfl
  have h6 : Reachable
      { root := BTreeNode.mk false [2] [BTreeNode.mk true [0, 1] [], BTreeNode.mk true [3, 4,
        5] []], t := 3 } :=
    reachable_insert h5 5 rfl
  have h7 : Reachable
      { root := BTreeNode.mk false [2] [BTreeNode.mk true [0, 1] [], BTreeNode.mk true [3, 4,
        5, 6] []], t := 3 } :=
    reachable_insert h6 6 rfl
  have h8 : Reachable
      { root := BTreeNode.mk false [2, 5] [BTreeNode.mk true [0, 1] [], BTreeNode.mk true [3,
        4] [], BTreeNode.mk true [6, 7] []], t := 3 } :=
    reachable_insert h7 7 rfl
  have h9 : Reachable
      { root := BTreeNode.mk false [2, 5] [BTreeNode.mk true [0, 1] [], BTreeNode.mk true [3,
        4] [], BTreeNode.mk true [6, 7, 8] []], t := 3 } :=
    reachable_insert h8 8 rfl
  have h10 : Reachable
      { root := BTreeNode.mk false [2, 5] [BTreeNode.mk true [0, 1] [], BTreeNode.mk true [3,
        4] [], BTreeNode.mk true [6, 7, 8, 9] []], t := 3 } :=
    reachable_insert h9 9 rfl
  have h11 : Reachable
      { root := BTreeNode.mk false [2, 5, 8] [BTreeNode.mk true [0, 1] [], BTreeNode.mk true
        [3, 4] [], BTreeNode.mk true [6, 7] [], BTreeNode.mk true [9, 10] []], t := 3 } :=
    reachable_insert h10 10 rfl
  have h12 : Reachable
      { root := BTreeNode.mk false [2, 5, 8] [BTreeNode.mk true [0, 1] [], BTreeNode.mk true
        [3, 4] [], BTreeNode.mk true [6, 7] [], BTreeNode.mk true [9, 10, 11] []], t := 3 } :=
    reachable_insert h11 11 rfl
  have h13 : Reachable
      { root := BTreeNode.mk false [2, 5, 8] [BTreeNode.mk true [0, 1] [], BTreeNode.mk true
        [3, 4] [], BTreeNode.mk true [6, 7] [], BTreeNode.mk true [9, 10, 11, 12] []], t := 3 } :=
    reachable_insert h12 12 rfl
  have h14 : Reachable
      { root := BTreeNode.mk false [2, 5, 8, 11] [BTreeNode.mk true [0, 1] [], BTreeNode.mk
        true [3, 4] [], BTreeNode.mk true [6, 7] [], BTreeNode.mk true [9, 10] [], BTreeNode.mk
        true [12, 13] []], t := 3 } :=
    reachable_insert h13 13 rfl
  exact h14

/-- C7, amended. Exact split shape: on a tree reachable from a freshly constructed one, `insert`
runs without fault, and every call of `splitChild` that it makes (the split of a full root, which
is among them whenever the root holds 4 keys, and each split of a full child before the descent)
is applied to a child `y` holding exactly `MAX_KEYS = 4` keys: `y` keeps the keys at indices 0
and 1, the key at index 2 is promoted into the parent, the new sibling `z` receives the single
key at index 3; and when `y` is not a leaf it has 5 children, of which `y` keeps the first 3 and
`z` receives the remaining 2. -/
theorem split_shape_during_insert (tr : BTree) (k : Int) (hr : Reachable tr) :
    ∃ tr1 evs, BTree.insert Access.raw tr k = .ok tr1 ∧
      BTree.insertEvents Access.raw tr k = .ok evs ∧
      (tr.root.keys.length = MAX_KEYS →
        Event.split (BTreeNode.mk false [] [tr.root]) 0 ∈ evs) ∧
      ∀ p i, Event.split p i ∈ evs →
        ∃ y a b m d p1, p.children[i]? = some y ∧ y.keys = [a, b, m, d] ∧
          BTree.splitChild Access.raw p i = .ok p1 ∧
          p1.keys[i]? = some m ∧
          p1.children[i]? = some (BTreeNode.mk y.leaf [a, b]
            (if y.leaf then y.children else y.children.take 3)) ∧
          p1.children[i + 1]? = some (BTreeNode.mk y.leaf [d]
            (if y.leaf then [] else y.children.drop 3)) ∧
          (y.leaf = false → y.children.length = 5 ∧
            (y.children.take 3).length = 3 ∧ (y.children.drop 3).length = 2) := by
  obtain ⟨h, hs, hmin, hsort⟩ := reachable_wellFormed hr
  obtain ⟨tr1, hrun, _⟩ := insert_spec tr k h hs hmin hsort
  obtain ⟨evs, hevs, hroot, hsplits⟩ := insertEvents_splits tr k h hs
  exact ⟨tr1, evs, hrun, hevs, hroot, fun p i hp => hsplits p i hp⟩

/-- Witness of C7: after `0, 1, ..., 13` the root is the full non-leaf node `[2, 5, 8, 11]` with
five leaf children, and the insert of `14` splits it. -/
theorem split_shape_during_insert_witness :
    Reachable fullInnerRootTree ∧
    ∃ tr1 evs, BTree.insert Access.raw fullInnerRootTree 14 = .ok tr1 ∧
      BTree.insertEvents Access.raw fullInnerRootTree 14 = .ok evs ∧
      (fullInnerRootTree.root.keys.length = MAX_KEYS →
        Event.split (BTreeNode.mk false [] [fullInnerRootTree.root]) 0 ∈ evs) ∧
      ∀ p i, Event.split p i ∈ evs →
        ∃ y a b m d p1, p.children[i]? = some y ∧ y.keys = [a, b, m, d] ∧
          BTree.splitChild Access.raw p i = .ok p1 ∧
          p1.keys[i]? = some m ∧
          p1.children[i]? = some (BTreeNode.mk y.leaf [a, b]
            (if y.leaf then y.children else y.children.take 3)) ∧
          p1.children[i + 1]? = some (BTreeNode.mk y.leaf [d]
            (if y.leaf then [] else y.children.drop 3)) ∧
          (y.leaf = false → y.children.length = 5 ∧
            (y.children.take 3).length = 3 ∧ (y.children.drop 3).length = 2) :=
  ⟨reachable_fullInnerRootTree,
    split_shape_during_insert fullInnerRootTree 14 reachable_fullInnerRootTree⟩
